import Mathlib

/-!
The module `colorPalettes.js`.

A shallow embedding of `src/colorPalettes.js`: the registry object `colorPalettes` with its
four colour arrays and its two methods, and the function `getTimeBasedPalette`.

Modelling choices.

* A JavaScript number is a `JSNumber`: a finite value, carried as a rational, or one of `NaN`,
  `+Infinity`, `-Infinity`. The operators `/`, `*` and `-` round their exact result to the
  nearest binary64 value, ties to the even one, with gradual underflow and with overflow to an
  infinity (`JSNumber.round64`). Division by zero produces the non-finite values as in
  JavaScript. The two zeros are one value: a result that underflows is `0`, which selects the
  same array element as `-0`.
* A number passed to a function is a binary64 value. Where a theorem holds for every rational
  it is stated so; where it needs the argument to be a binary64 value it assumes `isBinary64`.
* The value of a property read `this[key]` is a `JSValue`: an array of strings, a function, a
  plain object, or `undefined`. An element read `colors[index]` gives `Option String`, where
  `none` stands for `undefined`.
* A method that can throw returns `Except JSError _`.
* An omitted argument is `none`; a default parameter value replaces it.
* `getTimeBasedPalette` takes the hour read from the clock as an explicit argument.
-/

namespace ColorPalettes

/-! ## Binary64 rounding -/

/-- The integer nearest to `x`; when `x` lies halfway between two integers, the even one. -/
def roundHalfEven (x : ℚ) : ℤ :=
  if x - ⌊x⌋ < 1 / 2 then ⌊x⌋
  else if 1 / 2 < x - ⌊x⌋ then ⌊x⌋ + 1
  else if ⌊x⌋ % 2 = 0 then ⌊x⌋
  else ⌊x⌋ + 1

/-- The exponent of the binade of a magnitude `x ≥ 0`: the integer part of its binary logarithm,
and `-1022`, the exponent of the subnormal numbers, for everything smaller. -/
def binade (x : ℚ) : ℤ := max (Int.log 2 x) (-1022)

/-- The distance between neighbouring binary64 values in the binade of `x`: 52 binary digits
after the leading one. -/
def ulp (x : ℚ) : ℚ := 2 ^ (binade x - 52)

/-- The binary64 value nearest to a magnitude `x ≥ 0`, before the check for overflow. -/
def nearestMagnitude (x : ℚ) : ℚ := roundHalfEven (x / ulp x) * ulp x

/-- The binary64 value nearest to `q`, before the check for overflow: the sign of `q` and the
rounded magnitude. -/
def nearest64 (q : ℚ) : ℚ :=
  if 0 ≤ q then nearestMagnitude q else -nearestMagnitude (-q)

/-- Whether `q` is a binary64 value: a finite number that rounding leaves unchanged. -/
def isBinary64 (q : ℚ) : Prop := nearest64 q = q ∧ |q| < 2 ^ 1024

instance (q : ℚ) : Decidable (isBinary64 q) := by
  unfold isBinary64; infer_instance

/-! ## JavaScript numbers -/

/-- A JavaScript number: `NaN`, an infinity, or a finite value. -/
inductive JSNumber where
  | nan
  | posInf
  | negInf
  | fin (q : ℚ)
  deriving DecidableEq

namespace JSNumber

instance (n : ℕ) : OfNat JSNumber n := ⟨fin n⟩

/-- The result of an arithmetic operation whose exact value is `q`: the nearest binary64 value,
or an infinity when that value is `2 ^ 1024` or more in magnitude. -/
def round64 (q : ℚ) : JSNumber :=
  if 2 ^ 1024 ≤ nearest64 q then posInf
  else if nearest64 q ≤ -2 ^ 1024 then negInf
  else fin (nearest64 q)

/-- The operator `a / b`. A finite non-zero value divided by zero is an infinity with the sign of
the dividend, `0 / 0` is `NaN`; a finite quotient is rounded. -/
def div : JSNumber → JSNumber → JSNumber
  | nan, _ => nan
  | _, nan => nan
  | fin x, fin y =>
    if y = 0 then
      if x = 0 then nan else if 0 < x then posInf else negInf
    else round64 (x / y)
  | fin _, posInf => fin 0
  | fin _, negInf => fin 0
  | posInf, fin y => if 0 ≤ y then posInf else negInf
  | negInf, fin y => if 0 ≤ y then negInf else posInf
  | posInf, posInf => nan
  | posInf, negInf => nan
  | negInf, posInf => nan
  | negInf, negInf => nan

/-- The product of an infinity of sign `pos` with the finite value `x`. -/
def infTimes (pos : Bool) (x : ℚ) : JSNumber :=
  if x = 0 then nan else if (0 < x) = pos then posInf else negInf

/-- The operator `a * b`; a finite product is rounded. -/
def mul : JSNumber → JSNumber → JSNumber
  | nan, _ => nan
  | _, nan => nan
  | fin x, fin y => round64 (x * y)
  | fin x, posInf => infTimes true x
  | fin x, negInf => infTimes false x
  | posInf, fin y => infTimes true y
  | negInf, fin y => infTimes false y
  | posInf, posInf => posInf
  | posInf, negInf => negInf
  | negInf, posInf => negInf
  | negInf, negInf => posInf

/-- The operator `a - b`; a finite difference is rounded. -/
def sub : JSNumber → JSNumber → JSNumber
  | nan, _ => nan
  | _, nan => nan
  | fin x, fin y => round64 (x - y)
  | fin _, posInf => negInf
  | fin _, negInf => posInf
  | posInf, fin _ => posInf
  | negInf, fin _ => negInf
  | posInf, posInf => nan
  | posInf, negInf => posInf
  | negInf, posInf => negInf
  | negInf, negInf => nan

instance : Div JSNumber := ⟨div⟩
instance : Mul JSNumber := ⟨mul⟩
instance : Sub JSNumber := ⟨sub⟩

/-- The function `Math.floor`: the greatest integer below a finite value; `NaN` and the infinities
are returned unchanged. -/
def floor : JSNumber → JSNumber
  | fin q => fin ⌊q⌋
  | x => x

/-- The test `Number.isFinite`: whether a number is neither `NaN` nor an infinity. -/
def isFinite : JSNumber → Bool
  | fin _ => true
  | _ => false

end JSNumber

/-! ## JavaScript values -/

/-- The values a property of the registry object can have. -/
inductive JSValue where
  | undefined
  | array (xs : List String)
  | function (length : ℕ)
  | object
  deriving DecidableEq

/-- An exception thrown by the program. -/
inductive JSError where
  | typeError
  deriving DecidableEq

namespace JSValue

/-- The operator `a || b`: `a` when it is truthy, else `b`. Arrays, functions and objects are
truthy, `undefined` is falsy. -/
def or : JSValue → JSValue → JSValue
  | undefined, b => b
  | a, _ => a

/-- The read `v.length` used as a number. An array has its number of elements, a function its
number of formal parameters before the first one with a default value; a plain object has no such
property, the read gives `undefined`, which arithmetic converts to `NaN`. -/
def length : JSValue → JSNumber
  | array xs => JSNumber.fin xs.length
  | function n => JSNumber.fin n
  | object => JSNumber.nan
  | undefined => JSNumber.nan

/-- The read `v[index]` for a number `index`. An array has an element at the integers from `0`
up to its length; every other read gives `undefined`. -/
def get : JSValue → JSNumber → Option String
  | array xs, JSNumber.fin q =>
    if q.isInt ∧ 0 ≤ q then xs[q.num.toNat]? else none
  | _, _ => none

/-- Whether a value is an array, as `Array.isArray` tells. -/
def isArray : JSValue → Bool
  | array _ => true
  | _ => false

/-- The loop of `Array.prototype.join`: the elements after the first, each preceded by the
separator, appended to the text `acc` built so far. -/
def joinLoop (sep : String) (acc : String) : List String → String
  | [] => acc
  | x :: xs => joinLoop sep (acc ++ sep ++ x) xs

/-- The call `v.join(sep)`. Only an array has a `join` method; on a function or a plain object the
read gives `undefined` and calling it throws a `TypeError`. -/
def join (sep : String) : JSValue → Except JSError String
  | array [] => .ok ""
  | array (x :: xs) => .ok (joinLoop sep x xs)
  | _ => .error JSError.typeError

end JSValue

/-! ## The registry object -/

namespace colorPalettes

/-- Modern and professional palette. -/
def default : List String :=
  [ "#2c3e50", -- Dark blue
    "#e74c3c", -- Red
    "#3498db", -- Blue
    "#2ecc71", -- Green
    "#f1c40f", -- Yellow
    "#9b59b6", -- Purple
    "#1abc9c", -- Turquoise
    "#e67e22", -- Orange
    "#34495e", -- Navy blue
    "#16a085"  -- Dark turquoise
  ]

/-- Pastel palette. -/
def pastel : List String :=
  [ "#FFB3BA", -- Pink
    "#BAFFC9", -- Mint
    "#BAE1FF", -- Light blue
    "#FFFFBA", -- Light yellow
    "#FFB3F7", -- Light purple
    "#B3FFF9", -- Light turquoise
    "#FFC8B3", -- Light orange
    "#B3FFB3", -- Light green
    "#E0B3FF", -- Lavender
    "#FFE4B3"  -- Light peach
  ]

/-- Dark theme palette. -/
def dark : List String :=
  [ "#FF6B6B", -- Bright red
    "#4ECDC4", -- Turquoise
    "#45B7D1", -- Light blue
    "#96CEB4", -- Sage
    "#FFEEAD", -- Light yellow
    "#D4A5A5", -- Dusty rose
    "#9A7AA0", -- Purple
    "#87A8A4", -- Gray-green
    "#F7D794", -- Light orange
    "#9AECDB"  -- Mint
  ]

/-- Nature-inspired palette. -/
def nature : List String :=
  [ "#88B04B", -- Greenery
    "#92A8D1", -- Serenity
    "#955251", -- Marsala
    "#B565A7", -- Radiant orchid
    "#009B77", -- Emerald
    "#DD4124", -- Tangerine
    "#D94F70", -- Honeysuckle
    "#45B5AA", -- Turquoise
    "#5B5EA6", -- Ultra violet
    "#98B2D1"  -- Air force blue
  ]

/-- The own properties of the object literal, in source order: the four colour arrays and the two
methods. `getColorForFrequency` has two parameters before its defaulted one, `getGradientColors`
has none. -/
def ownProperties : List (String × JSValue) :=
  [ ("default", .array default),
    ("pastel", .array pastel),
    ("dark", .array dark),
    ("nature", .array nature),
    ("getColorForFrequency", .function 2),
    ("getGradientColors", .function 0) ]

/-- The properties an object literal inherits from `Object.prototype`. -/
def inheritedProperties : List (String × JSValue) :=
  [ ("constructor", .function 1),
    ("hasOwnProperty", .function 1),
    ("isPrototypeOf", .function 1),
    ("propertyIsEnumerable", .function 1),
    ("toLocaleString", .function 0),
    ("toString", .function 0),
    ("valueOf", .function 0),
    ("__defineGetter__", .function 2),
    ("__defineSetter__", .function 2),
    ("__lookupGetter__", .function 1),
    ("__lookupSetter__", .function 1),
    ("__proto__", .object) ]

/-- The read `this[key]` inside a method called on `colorPalettes`: the own property of that name,
else the inherited one, else `undefined`. -/
def getProperty (key : String) : JSValue :=
  match ownProperties.lookup key with
  | some v => v
  | none =>
    match inheritedProperties.lookup key with
    | some v => v
    | none => .undefined

/-- Get colors for specific word frequencies. -/
def getColorForFrequency (frequency maxFrequency : JSNumber) (palette : Option String) :
    Option String :=
  let palette := palette.getD "default"
  -- Ensure the palette exists, otherwise use default
  let colors := (getProperty palette).or (getProperty "default")
  -- Calculate the color index based on frequency
  let ratio := frequency / maxFrequency
  let index := JSNumber.floor (ratio * (colors.length - 1))
  colors.get index

/-- The object returned by `getGradientColors`. -/
structure Gradient where
  colors : JSValue
  cssGradient : String
  deriving DecidableEq

/-- Get gradient colors for a range. -/
def getGradientColors (palette : Option String) : Except JSError Gradient :=
  let palette := palette.getD "default"
  let colors := (getProperty palette).or (getProperty "default")
  match colors.join ", " with
  | .ok joined =>
    .ok ⟨colors, "linear-gradient(45deg, " ++ joined ++ ")"⟩
  | .error e => .error e

end colorPalettes

/-- Function to get a color scheme based on time of day; `hour` is the value of
`new Date().getHours()`. -/
def getTimeBasedPalette (hour : ℤ) : List String :=
  if hour ≥ 6 ∧ hour < 12 then
    colorPalettes.nature     -- Morning
  else if hour ≥ 12 ∧ hour < 17 then
    colorPalettes.default    -- Afternoon
  else if hour ≥ 17 ∧ hour < 20 then
    colorPalettes.pastel     -- Evening
  else
    colorPalettes.dark       -- Night

/-! ## Colour strings -/

/-- Whether a character is a hexadecimal digit: `0` to `9`, `a` to `f` or `A` to `F`. -/
def isHexDigit (c : Char) : Bool :=
  (48 ≤ c.toNat && c.toNat ≤ 57) || (97 ≤ c.toNat && c.toNat ≤ 102) ||
    (65 ≤ c.toNat && c.toNat ≤ 70)

/-- Whether a string has the form `#RRGGBB`: the character `#` followed by exactly six
hexadecimal digits, seven characters in all. -/
def isHexColor (s : String) : Bool :=
  match s.toList with
  | c :: digits => c == '#' && digits.length == 6 && digits.all isHexDigit
  | [] => false

open colorPalettes

/-! ## Auxiliary facts -/

theorem roundHalfEven_intCast (n : ℤ) : roundHalfEven (n : ℚ) = n := by
  simp [roundHalfEven]

theorem floor_le_roundHalfEven (x : ℚ) : ⌊x⌋ ≤ roundHalfEven x := by
  unfold roundHalfEven
  split_ifs <;> omega

theorem roundHalfEven_le_floor_add_one (x : ℚ) : roundHalfEven x ≤ ⌊x⌋ + 1 := by
  unfold roundHalfEven
  split_ifs <;> omega

theorem roundHalfEven_mono {x y : ℚ} (h : x ≤ y) : roundHalfEven x ≤ roundHalfEven y := by
  rcases lt_or_eq_of_le (Int.floor_mono h) with hlt | heq
  · calc roundHalfEven x ≤ ⌊x⌋ + 1 := roundHalfEven_le_floor_add_one x
      _ ≤ ⌊y⌋ := hlt
      _ ≤ roundHalfEven y := floor_le_roundHalfEven y
  · have hd : x - ⌊x⌋ ≤ y - ⌊y⌋ := by rw [heq]; linarith
    unfold roundHalfEven
    rw [heq] at hd ⊢
    split_ifs <;> first | omega | (exfalso; linarith)

theorem roundHalfEven_nonneg {x : ℚ} (h : 0 ≤ x) : 0 ≤ roundHalfEven x :=
  le_trans (Int.floor_nonneg.2 h) (floor_le_roundHalfEven x)

theorem roundHalfEven_le_of_le_intCast {x : ℚ} {n : ℤ} (h : x ≤ n) : roundHalfEven x ≤ n := by
  have := roundHalfEven_mono h
  rwa [roundHalfEven_intCast] at this

theorem le_roundHalfEven_of_intCast_le {x : ℚ} {n : ℤ} (h : (n : ℚ) ≤ x) :
    n ≤ roundHalfEven x := by
  have := roundHalfEven_mono h
  rwa [roundHalfEven_intCast] at this

theorem ulp_pos (x : ℚ) : 0 < ulp x := by
  unfold ulp; positivity

theorem pow53_mul_ulp (x : ℚ) : ((2 ^ 53 : ℤ) : ℚ) * ulp x = 2 ^ (binade x + 1) := by
  have h : (2 : ℚ) ^ (binade x + 1) = 2 ^ (53 : ℤ) * 2 ^ (binade x - 52) := by
    rw [← zpow_add₀ (by norm_num : (2 : ℚ) ≠ 0)]
    congr 1
    ring
  rw [h]
  unfold ulp
  norm_num

theorem pow52_mul_ulp (x : ℚ) : ((2 ^ 52 : ℤ) : ℚ) * ulp x = 2 ^ binade x := by
  have h : (2 : ℚ) ^ binade x = 2 ^ (52 : ℤ) * 2 ^ (binade x - 52) := by
    rw [← zpow_add₀ (by norm_num : (2 : ℚ) ≠ 0)]
    congr 1
    ring
  rw [h]
  unfold ulp
  norm_num

theorem binade_mono {x y : ℚ} (hx : 0 < x) (h : x ≤ y) : binade x ≤ binade y :=
  max_le_max (Int.log_mono_right hx h) le_rfl

theorem lt_zpow_binade_succ (x : ℚ) : x < 2 ^ (binade x + 1) := by
  have h1 : x < (2 : ℚ) ^ (Int.log 2 x + 1) := by
    have := Int.lt_zpow_succ_log_self (R := ℚ) (b := 2) (by norm_num) x
    simpa using this
  refine lt_of_lt_of_le h1 (zpow_le_zpow_right₀ (by norm_num) ?_)
  have : Int.log 2 x ≤ binade x := le_max_left _ _
  omega

theorem zpow_binade_le {x : ℚ} (hx : 0 < x) (h : -1022 < binade x) : 2 ^ binade x ≤ x := by
  have hb : binade x = Int.log 2 x := by
    unfold binade at h ⊢
    rcases max_cases (Int.log 2 x) (-1022) with ⟨h1, _⟩ | ⟨h1, _⟩
    · exact h1
    · rw [h1] at h; exact absurd h (lt_irrefl _)
  rw [hb]
  have := Int.zpow_log_le_self (R := ℚ) (b := 2) (by norm_num) hx
  simpa using this

theorem nearestMagnitude_nonneg {x : ℚ} (h : 0 ≤ x) : 0 ≤ nearestMagnitude x := by
  unfold nearestMagnitude
  have h1 : 0 ≤ x / ulp x := div_nonneg h (ulp_pos x).le
  have h2 := roundHalfEven_nonneg h1
  have h3 : (0 : ℚ) ≤ (roundHalfEven (x / ulp x) : ℚ) := by exact_mod_cast h2
  exact mul_nonneg h3 (ulp_pos x).le

/-- A magnitude is rounded to at most the upper end of its binade. -/
theorem nearestMagnitude_le_zpow (x : ℚ) : nearestMagnitude x ≤ 2 ^ (binade x + 1) := by
  unfold nearestMagnitude
  have hu := ulp_pos x
  have h1 : x / ulp x ≤ ((2 ^ 53 : ℤ) : ℚ) := by
    rw [div_le_iff₀ hu]
    have h2 := (lt_zpow_binade_succ x).le
    have h3 : ((2 ^ 53 : ℤ) : ℚ) * ulp x = 2 ^ (binade x + 1) := pow53_mul_ulp x
    rw [h3]; exact h2
  have h4 := roundHalfEven_le_of_le_intCast h1
  have h5 : (roundHalfEven (x / ulp x) : ℚ) ≤ ((2 ^ 53 : ℤ) : ℚ) := by exact_mod_cast h4
  have h3 : ((2 ^ 53 : ℤ) : ℚ) * ulp x = 2 ^ (binade x + 1) := pow53_mul_ulp x
  rw [← h3]
  exact mul_le_mul_of_nonneg_right h5 hu.le

/-- A magnitude in a normal binade is rounded to at least the lower end of its binade. -/
theorem zpow_le_nearestMagnitude {x : ℚ} (hx : 0 < x) (h : -1022 < binade x) :
    2 ^ binade x ≤ nearestMagnitude x := by
  unfold nearestMagnitude
  have hu := ulp_pos x
  have h3 : ((2 ^ 52 : ℤ) : ℚ) * ulp x = 2 ^ binade x := pow52_mul_ulp x
  have h1 : ((2 ^ 52 : ℤ) : ℚ) ≤ x / ulp x := by
    rw [le_div_iff₀ hu, h3]
    exact zpow_binade_le hx h
  have h4 := le_roundHalfEven_of_intCast_le h1
  have h5 : ((2 ^ 52 : ℤ) : ℚ) ≤ (roundHalfEven (x / ulp x) : ℚ) := by exact_mod_cast h4
  rw [← h3]
  exact mul_le_mul_of_nonneg_right h5 hu.le

theorem nearestMagnitude_mono {x y : ℚ} (hx : 0 ≤ x) (h : x ≤ y) :
    nearestMagnitude x ≤ nearestMagnitude y := by
  rcases eq_or_lt_of_le hx with h0 | hpos
  · have hz : nearestMagnitude x = 0 := by
      rw [← h0]; simp [nearestMagnitude, roundHalfEven]
    rw [hz]
    exact nearestMagnitude_nonneg (le_trans hx h)
  · have hy : 0 < y := lt_of_lt_of_le hpos h
    rcases eq_or_lt_of_le (binade_mono hpos h) with heq | hlt
    · unfold nearestMagnitude
      have hu : ulp x = ulp y := by unfold ulp; rw [heq]
      rw [hu]
      have h1 : x / ulp y ≤ y / ulp y := div_le_div_of_nonneg_right h (ulp_pos y).le
      have h2 := roundHalfEven_mono h1
      have h3 : (roundHalfEven (x / ulp y) : ℚ) ≤ (roundHalfEven (y / ulp y) : ℚ) := by
        exact_mod_cast h2
      exact mul_le_mul_of_nonneg_right h3 (ulp_pos y).le
    · have hby : -1022 < binade y := by
        have : -1022 ≤ binade x := le_max_right _ _
        omega
      calc nearestMagnitude x ≤ 2 ^ (binade x + 1) := nearestMagnitude_le_zpow x
        _ ≤ 2 ^ binade y := zpow_le_zpow_right₀ (by norm_num) (by omega)
        _ ≤ nearestMagnitude y := zpow_le_nearestMagnitude hy hby

theorem nearest64_mono {p q : ℚ} (h : p ≤ q) : nearest64 p ≤ nearest64 q := by
  unfold nearest64
  by_cases hp : 0 ≤ p
  · have hq : 0 ≤ q := le_trans hp h
    rw [if_pos hp, if_pos hq]
    exact nearestMagnitude_mono hp h
  · rw [if_neg hp]
    have hp' : 0 ≤ -p := by linarith
    by_cases hq : 0 ≤ q
    · rw [if_pos hq]
      have := nearestMagnitude_nonneg hp'
      have := nearestMagnitude_nonneg hq
      linarith
    · rw [if_neg hq]
      have hq' : 0 ≤ -q := by linarith
      have := nearestMagnitude_mono hq' (by linarith : -q ≤ -p)
      linarith

theorem nearestMagnitude_zero : nearestMagnitude 0 = 0 := by
  simp [nearestMagnitude, roundHalfEven]

theorem nearest64_neg (q : ℚ) : nearest64 (-q) = -nearest64 q := by
  unfold nearest64
  rcases lt_trichotomy q 0 with h | h | h
  · rw [if_pos (by linarith : (0 : ℚ) ≤ -q), if_neg (by linarith : ¬ (0 : ℚ) ≤ q)]
    simp
  · subst h
    simp [nearestMagnitude_zero]
  · rw [if_neg (by linarith : ¬ (0 : ℚ) ≤ -q), if_pos h.le]
    simp

theorem nearest64_nonneg {q : ℚ} (h : 0 ≤ q) : 0 ≤ nearest64 q := by
  unfold nearest64
  rw [if_pos h]
  exact nearestMagnitude_nonneg h

theorem nearest64_zero : nearest64 0 = 0 := by
  simp [nearest64, nearestMagnitude_zero]

/-- The exponent of the binade of a positive magnitude, from bounds by powers of two. -/
theorem binade_eq {x : ℚ} {e : ℤ} (hx : 0 < x) (he : -1022 ≤ e)
    (hlo : e = -1022 ∨ 2 ^ e ≤ x) (hhi : x < 2 ^ (e + 1)) : binade x = e := by
  have h1 : Int.log 2 x < e + 1 := by
    have := (Int.lt_zpow_iff_log_lt (R := ℚ) (b := 2) (by norm_num) (x := e + 1) hx).1
      (by simpa using hhi)
    exact this
  unfold binade
  rcases hlo with h | h
  · rw [h] at h1 ⊢
    exact max_eq_right (by omega)
  · have h2 : e ≤ Int.log 2 x :=
      (Int.zpow_le_iff_le_log (R := ℚ) (b := 2) (by norm_num) (x := e) hx).1 (by simpa using h)
    have : Int.log 2 x = e := by omega
    rw [this]
    exact max_eq_left he

/-- The value of the rounding from the exponent of the binade and the rounded quotient. -/
theorem nearestMagnitude_eval {x : ℚ} {e n : ℤ} (hb : binade x = e)
    (hn : roundHalfEven (x / 2 ^ (e - 52)) = n) : nearestMagnitude x = n * 2 ^ (e - 52) := by
  unfold nearestMagnitude ulp
  rw [hb, hn]

/-- A multiple of the spacing of its own binade is a binary64 value. -/
theorem nearestMagnitude_eq_self {x : ℚ} {e n : ℤ} (hb : binade x = e)
    (hn : x = n * 2 ^ (e - 52)) : nearestMagnitude x = x := by
  have hpos : (0 : ℚ) < 2 ^ (e - 52) := by positivity
  have h1 : x / 2 ^ (e - 52) = (n : ℚ) := by
    rw [hn]; field_simp
  rw [nearestMagnitude_eval hb (n := n) (by rw [h1, roundHalfEven_intCast]), ← hn]

/-- The rounding of a quotient that lies strictly within half a unit of an integer. -/
theorem roundHalfEven_eq_of_lt {x : ℚ} {n : ℤ} (h1 : (n : ℚ) - 1 / 2 < x)
    (h2 : x < (n : ℚ) + 1 / 2) : roundHalfEven x = n := by
  have hlo : n - 1 ≤ ⌊x⌋ := Int.le_floor.2 (by push_cast; linarith)
  have hhi : ⌊x⌋ < n + 1 := Int.floor_lt.2 (by push_cast; linarith)
  have hfl := Int.floor_le x
  have hlt := Int.lt_floor_add_one x
  unfold roundHalfEven
  rcases (by omega : ⌊x⌋ = n - 1 ∨ ⌊x⌋ = n) with h | h
  · rw [h] at hfl hlt ⊢
    push_cast at hfl hlt ⊢
    rw [if_neg (by linarith), if_pos (by linarith)]
    ring
  · rw [h] at hfl hlt ⊢
    rw [if_pos (by linarith)]

/-- A natural number below `2 ^ 53` is a binary64 value. -/
theorem nearest64_natCast (k : ℕ) (hk : k < 2 ^ 53) : nearest64 (k : ℚ) = k := by
  unfold nearest64
  rw [if_pos (Nat.cast_nonneg k)]
  rcases Nat.eq_zero_or_pos k with h0 | hpos
  · subst h0; simpa using nearestMagnitude_zero
  · have hL : Nat.log 2 k < 53 := by
      have := Nat.log_lt_of_lt_pow (b := 2) (by omega) hk
      exact this
    have hb : binade (k : ℚ) = (Nat.log 2 k : ℤ) := by
      unfold binade
      rw [Int.log_natCast]
      exact max_eq_left (by omega)
    refine nearestMagnitude_eq_self hb (n := (k * 2 ^ (52 - Nat.log 2 k) : ℕ)) ?_
    have h2 : (2 : ℚ) ^ ((Nat.log 2 k : ℤ) - 52) = ((2 : ℚ) ^ (52 - Nat.log 2 k))⁻¹ := by
      rw [← zpow_natCast, ← zpow_neg]
      congr 1
      have : Nat.log 2 k ≤ 52 := by omega
      push_cast [this]
      ring
    rw [h2]
    push_cast
    field_simp

/-- A positive multiple of the spacing of its binade is a binary64 value. -/
theorem nearest64_eq_self_of_pos {x : ℚ} {e n : ℤ} (hx : 0 < x) (he : -1022 ≤ e)
    (hlo : e = -1022 ∨ 2 ^ e ≤ x) (hhi : x < 2 ^ (e + 1)) (hn : x = n * 2 ^ (e - 52)) :
    nearest64 x = x := by
  unfold nearest64
  rw [if_pos hx.le]
  exact nearestMagnitude_eq_self (binade_eq hx he hlo hhi) hn

/-- The rounding of a positive number from the exponent of its binade and an integer within half
a unit of the quotient by the spacing. -/
theorem nearest64_eval_of_pos {x : ℚ} {e n : ℤ} (hx : 0 < x) (he : -1022 ≤ e)
    (hlo : e = -1022 ∨ 2 ^ e ≤ x) (hhi : x < 2 ^ (e + 1))
    (h1 : (n : ℚ) - 1 / 2 < x / 2 ^ (e - 52)) (h2 : x / 2 ^ (e - 52) < (n : ℚ) + 1 / 2) :
    nearest64 x = n * 2 ^ (e - 52) := by
  unfold nearest64
  rw [if_pos hx.le]
  exact nearestMagnitude_eval (binade_eq hx he hlo hhi) (roundHalfEven_eq_of_lt h1 h2)

theorem nearest64_half : nearest64 (1 / 2) = 1 / 2 :=
  nearest64_eq_self_of_pos (e := -1) (n := 2 ^ 52) (by norm_num) (by norm_num)
    (Or.inr (by norm_num)) (by norm_num) (by norm_num)

theorem nearest64_nine_halves : nearest64 (9 / 2) = 9 / 2 :=
  nearest64_eq_self_of_pos (e := 2) (n := 9 * 2 ^ 49) (by norm_num) (by norm_num)
    (Or.inr (by norm_num)) (by norm_num) (by norm_num)

/-- The smallest positive binary64 value. -/
theorem nearest64_min : nearest64 (2 ^ (-1074 : ℤ)) = 2 ^ (-1074 : ℤ) :=
  nearest64_eq_self_of_pos (e := -1022) (n := 1) (by positivity) (by norm_num)
    (Or.inl rfl) (zpow_lt_zpow_right₀ (by norm_num) (by norm_num)) (by norm_num)

/-- A positive rounded magnitude is at least the smallest positive binary64 value. -/
theorem zpow_le_nearestMagnitude_of_pos {x : ℚ} (h : 0 < nearestMagnitude x) :
    2 ^ (-1074 : ℤ) ≤ nearestMagnitude x := by
  unfold nearestMagnitude at h ⊢
  have hu := ulp_pos x
  have hn : (0 : ℚ) < (roundHalfEven (x / ulp x) : ℚ) := by
    by_contra hc
    have := mul_nonpos_of_nonpos_of_nonneg (not_lt.1 hc) hu.le
    linarith
  have hn1 : (1 : ℤ) ≤ roundHalfEven (x / ulp x) := by
    have : (0 : ℤ) < roundHalfEven (x / ulp x) := by exact_mod_cast hn
    omega
  have hn2 : (1 : ℚ) ≤ (roundHalfEven (x / ulp x) : ℚ) := by exact_mod_cast hn1
  have hu2 : (2 : ℚ) ^ (-1074 : ℤ) ≤ ulp x := by
    unfold ulp
    refine zpow_le_zpow_right₀ (by norm_num) ?_
    have : -1022 ≤ binade x := le_max_right _ _
    omega
  calc (2 : ℚ) ^ (-1074 : ℤ) ≤ ulp x := hu2
    _ = 1 * ulp x := (one_mul _).symm
    _ ≤ (roundHalfEven (x / ulp x) : ℚ) * ulp x := mul_le_mul_of_nonneg_right hn2 hu.le

/-- A negative rounded value is at most the largest negative binary64 value. -/
theorem nearest64_le_of_neg {q : ℚ} (h : nearest64 q < 0) : nearest64 q ≤ -2 ^ (-1074 : ℤ) := by
  unfold nearest64 at h ⊢
  by_cases hq : 0 ≤ q
  · rw [if_pos hq] at h
    have := nearestMagnitude_nonneg hq
    linarith
  · rw [if_neg hq] at h ⊢
    have := zpow_le_nearestMagnitude_of_pos (x := -q) (by linarith)
    linarith

/-- The product of a negative binary64 value and 9 rounds to a negative value. -/
theorem nearest64_mul_nine_neg {r : ℚ} (h : r ≤ -2 ^ (-1074 : ℤ)) : nearest64 (r * 9) < 0 := by
  have hpos : (0 : ℚ) < 2 ^ (-1074 : ℤ) := by positivity
  have h1 : r * 9 ≤ -2 ^ (-1074 : ℤ) := by linarith
  have h2 := nearest64_mono h1
  rw [nearest64_neg, nearest64_min] at h2
  linarith

theorem JSNumber.ofNat_eq (n : ℕ) : (OfNat.ofNat n : JSNumber) = JSNumber.fin n := rfl

theorem JSNumber.div_def (a b : JSNumber) : a / b = JSNumber.div a b := rfl

theorem JSNumber.mul_def (a b : JSNumber) : a * b = JSNumber.mul a b := rfl

theorem JSNumber.sub_def (a b : JSNumber) : a - b = JSNumber.sub a b := rfl

theorem JSNumber.div_fin (f m : ℚ) (hm : m ≠ 0) :
    JSNumber.fin f / JSNumber.fin m = JSNumber.round64 (f / m) := by
  simp [JSNumber.div_def, JSNumber.div, hm]

theorem JSNumber.mul_fin (a b : ℚ) :
    JSNumber.fin a * JSNumber.fin b = JSNumber.round64 (a * b) := rfl

/-- A rounded value below `2 ^ 1024` in magnitude is the finite result. -/
theorem JSNumber.round64_eq_fin {q r : ℚ} (h : nearest64 q = r) (h1 : -2 ^ 1024 < r)
    (h2 : r < 2 ^ 1024) : JSNumber.round64 q = JSNumber.fin r := by
  unfold JSNumber.round64
  rw [h, if_neg (not_le.2 h2), if_neg (not_le.2 h1)]

/-- The result of an operation is an infinity or the nearest binary64 value. -/
theorem JSNumber.round64_cases (q : ℚ) :
    (JSNumber.round64 q = JSNumber.posInf ∧ 2 ^ 1024 ≤ nearest64 q) ∨
    (JSNumber.round64 q = JSNumber.negInf ∧ nearest64 q ≤ -2 ^ 1024) ∨
    (JSNumber.round64 q = JSNumber.fin (nearest64 q) ∧ -2 ^ 1024 < nearest64 q ∧
      nearest64 q < 2 ^ 1024) := by
  unfold JSNumber.round64
  by_cases h1 : (2 : ℚ) ^ 1024 ≤ nearest64 q
  · exact Or.inl ⟨by rw [if_pos h1], h1⟩
  · by_cases h2 : nearest64 q ≤ -2 ^ 1024
    · exact Or.inr (Or.inl ⟨by rw [if_neg h1, if_pos h2], h2⟩)
    · exact Or.inr (Or.inr ⟨by rw [if_neg h1, if_neg h2], not_le.1 h2, not_le.1 h1⟩)

theorem nearest64_le_natCast {q : ℚ} {k : ℕ} (hk : k < 2 ^ 53) (h : q ≤ k) :
    nearest64 q ≤ k := by
  have := nearest64_mono h
  rwa [nearest64_natCast k hk] at this

theorem natCast_le_nearest64 {q : ℚ} {k : ℕ} (hk : k < 2 ^ 53) (h : (k : ℚ) ≤ q) :
    (k : ℚ) ≤ nearest64 q := by
  have := nearest64_mono h
  rwa [nearest64_natCast k hk] at this

/-- Between `0` and a natural number below `2 ^ 53` the result of an operation is finite and
stays between the same bounds. -/
theorem JSNumber.round64_of_bounds {q : ℚ} {k : ℕ} (hk : k < 2 ^ 53) (h0 : 0 ≤ q)
    (h1 : q ≤ k) :
    JSNumber.round64 q = JSNumber.fin (nearest64 q) ∧ 0 ≤ nearest64 q ∧ nearest64 q ≤ k := by
  have hlo := nearest64_nonneg h0
  have hhi := nearest64_le_natCast hk h1
  have hk' : (k : ℚ) < 2 ^ 53 := by exact_mod_cast hk
  refine ⟨JSNumber.round64_eq_fin rfl ?_ ?_, hlo, hhi⟩
  · have : (0 : ℚ) < 2 ^ 1024 := by positivity
    linarith
  · have : (2 : ℚ) ^ 53 < 2 ^ 1024 := by norm_num
    linarith

theorem JSNumber.round64_natCast (k : ℕ) (hk : k < 2 ^ 53) :
    JSNumber.round64 (k : ℚ) = JSNumber.fin k := by
  have h := (JSNumber.round64_of_bounds hk (Nat.cast_nonneg k) le_rfl).1
  rw [h, nearest64_natCast k hk]

/-- Reading an array at the floor of a finite number. -/
theorem JSValue.get_array_floor (xs : List String) (q : ℚ) :
    (JSValue.array xs).get (JSNumber.floor (.fin q)) =
      if 0 ≤ ⌊q⌋ then xs[⌊q⌋.toNat]? else none := by
  simp [JSValue.get, JSNumber.floor, Rat.isInt]

/-- The expression `colors.length - 1` for a palette of ten colours. -/
theorem JSValue.length_sub_one (colors : List String) (hlen : colors.length = 10) :
    (JSValue.array colors).length - 1 = JSNumber.fin 9 := by
  simp only [JSValue.length, hlen, JSNumber.ofNat_eq, JSNumber.sub_def, JSNumber.sub]
  have h : ((10 : ℕ) : ℚ) - ((1 : ℕ) : ℚ) = ((9 : ℕ) : ℚ) := by norm_num
  rw [h, JSNumber.round64_natCast 9 (by norm_num)]
  norm_num

theorem getProperty_default : getProperty "default" = .array colorPalettes.default := by
  decide

theorem getProperty_pastel : getProperty "pastel" = .array pastel := by
  decide

theorem getProperty_dark : getProperty "dark" = .array dark := by
  decide

theorem getProperty_nature : getProperty "nature" = .array nature := by
  decide

/-- A successful lookup in an association list returns an entry of the list. -/
theorem mem_of_lookup_eq_some (k : String) (v : JSValue) :
    ∀ l : List (String × JSValue), l.lookup k = some v → (k, v) ∈ l
  | [], h => by simp at h
  | (a, b) :: es, h => by
    by_cases hk : k = a
    · subst hk
      simp [List.lookup] at h
      simp [h]
    · have h2 : (k == a) = false := by simpa using hk
      simp only [List.lookup, h2] at h
      exact List.mem_cons_of_mem _ (mem_of_lookup_eq_some k v es h)

theorem inherited_not_array : ∀ p ∈ inheritedProperties, p.2.isArray = false := by
  decide

/-- The array-valued properties of the registry object are its four palettes. -/
theorem getProperty_array_iff (key : String) (xs : List String) :
    getProperty key = .array xs ↔
      (key = "default" ∧ xs = colorPalettes.default) ∨ (key = "pastel" ∧ xs = pastel) ∨
      (key = "dark" ∧ xs = dark) ∨ (key = "nature" ∧ xs = nature) := by
  constructor
  · intro h
    unfold getProperty at h
    cases ho : ownProperties.lookup key with
    | some v =>
      rw [ho] at h
      simp only at h
      subst h
      have hm := mem_of_lookup_eq_some _ _ _ ho
      simp only [ownProperties, List.mem_cons, Prod.mk.injEq, JSValue.array.injEq,
        List.mem_singleton, reduceCtorEq, and_false, or_false, List.not_mem_nil] at hm
      exact hm
    | none =>
      rw [ho] at h
      simp only at h
      cases hi : inheritedProperties.lookup key with
      | some v =>
        rw [hi] at h
        simp only at h
        subst h
        have := inherited_not_array _ (mem_of_lookup_eq_some _ _ _ hi)
        simp [JSValue.isArray] at this
      | none =>
        rw [hi] at h
        simp at h
  · rintro (⟨rfl, rfl⟩ | ⟨rfl, rfl⟩ | ⟨rfl, rfl⟩ | ⟨rfl, rfl⟩) <;> decide

/-- A name that is not a property of the registry object resolves to the default palette. -/
theorem resolve_of_undefined (name : String) (h : getProperty name = .undefined) :
    (getProperty name).or (getProperty "default") = .array colorPalettes.default := by
  rw [h, getProperty_default]; rfl

/-- Each of the four palette names resolves to its own array of ten colours. -/
theorem resolve_of_defined (name : String)
    (h : name = "default" ∨ name = "pastel" ∨ name = "dark" ∨ name = "nature") :
    ∃ colors, getProperty name = .array colors ∧ colors.length = 10 ∧
      (getProperty name).or (getProperty "default") = .array colors := by
  rcases h with h | h | h | h <;> subst h
  · exact ⟨_, getProperty_default, rfl, by rw [getProperty_default]; rfl⟩
  · exact ⟨_, getProperty_pastel, rfl, by rw [getProperty_pastel]; rfl⟩
  · exact ⟨_, getProperty_dark, rfl, by rw [getProperty_dark]; rfl⟩
  · exact ⟨_, getProperty_nature, rfl, by rw [getProperty_nature]; rfl⟩

/-- Whenever the name resolves to an array, that array is one of the palettes: ten colours. -/
theorem resolve_array_length (name : String) (colors : List String)
    (h : (getProperty name).or (getProperty "default") = .array colors) :
    colors.length = 10 := by
  have key : ∀ k xs, getProperty k = .array xs → xs.length = 10 := by
    intro k xs hk
    rcases (getProperty_array_iff k xs).1 hk with
      ⟨_, rfl⟩ | ⟨_, rfl⟩ | ⟨_, rfl⟩ | ⟨_, rfl⟩ <;> rfl
  cases hp : getProperty name with
  | undefined =>
    rw [hp, getProperty_default] at h
    simp only [JSValue.or, JSValue.array.injEq] at h
    subst h; rfl
  | array xs =>
    rw [hp] at h
    simp only [JSValue.or, JSValue.array.injEq] at h
    subst h
    exact key _ _ hp
  | function n => rw [hp] at h; simp [JSValue.or] at h
  | object => rw [hp] at h; simp [JSValue.or] at h

/-- The loop of `join` builds the same text as `String.intercalate`. -/
theorem JSValue.joinLoop_eq (sep : String) :
    ∀ (xs : List String) (acc : String),
      JSValue.joinLoop sep acc xs = String.intercalate.go acc sep xs
  | [], _ => rfl
  | x :: xs, acc => by
    rw [JSValue.joinLoop, String.intercalate.go]
    exact JSValue.joinLoop_eq sep xs _

theorem JSValue.join_array (sep : String) (xs : List String) :
    JSValue.join sep (.array xs) = .ok (sep.intercalate xs) := by
  cases xs with
  | nil => rfl
  | cons x xs => simp [JSValue.join, String.intercalate, JSValue.joinLoop_eq]

theorem palettes_distinct :
    nature ≠ colorPalettes.default ∧ nature ≠ pastel ∧ nature ≠ dark ∧
      colorPalettes.default ≠ pastel ∧ colorPalettes.default ≠ dark ∧ pastel ≠ dark := by
  decide

/-- The palette a name resolves to has no colour twice, so a colour determines its position. -/
theorem resolve_array_nodup (name : String) (colors : List String)
    (h : (getProperty name).or (getProperty "default") = .array colors) :
    colors.Nodup := by
  have key : ∀ k xs, getProperty k = .array xs → xs.Nodup := by
    intro k xs hk
    rcases (getProperty_array_iff k xs).1 hk with
      ⟨_, rfl⟩ | ⟨_, rfl⟩ | ⟨_, rfl⟩ | ⟨_, rfl⟩ <;> decide
  cases hp : getProperty name with
  | undefined =>
    rw [hp, getProperty_default] at h
    simp only [JSValue.or, JSValue.array.injEq] at h
    subst h
    exact key _ _ getProperty_default
  | array xs =>
    rw [hp] at h
    simp only [JSValue.or, JSValue.array.injEq] at h
    subst h
    exact key _ _ hp
  | function n => rw [hp] at h; simp [JSValue.or] at h
  | object => rw [hp] at h; simp [JSValue.or] at h

/-- The value of `getColorForFrequency` for a palette of ten colours and a finite non-zero
maximum: the element read at the floor of the rounded product of the rounded quotient and 9. -/
theorem getColorForFrequency_resolved (f m : ℚ) (hm : m ≠ 0) (name : String)
    (colors : List String)
    (h : (getProperty name).or (getProperty "default") = .array colors) :
    getColorForFrequency (.fin f) (.fin m) (some name) =
      (JSValue.array colors).get
        (JSNumber.floor (JSNumber.round64 (f / m) * JSNumber.fin 9)) := by
  have hlen := resolve_array_length name colors h
  unfold getColorForFrequency
  simp only [Option.getD_some, h, JSValue.length_sub_one colors hlen, JSNumber.div_fin f m hm]

/-- The index of `getColorForFrequency` when the rounded quotient `r` lies between 0 and
`2 ^ 40`: the floor of the rounded product `r * 9`. -/
theorem getColorForFrequency_index (f m : ℚ) (hm : m ≠ 0) (name : String)
    (colors : List String)
    (h : (getProperty name).or (getProperty "default") = .array colors)
    (h0 : 0 ≤ f / m) (h1 : f / m ≤ 2 ^ 40) :
    JSNumber.floor (JSNumber.fin f / JSNumber.fin m * ((JSValue.array colors).length - 1)) =
      JSNumber.fin ⌊nearest64 (nearest64 (f / m) * 9)⌋ ∧
    getColorForFrequency (.fin f) (.fin m) (some name) =
      colors[⌊nearest64 (nearest64 (f / m) * 9)⌋.toNat]? := by
  have hlen := resolve_array_length name colors h
  have hq := JSNumber.round64_of_bounds (q := f / m) (k := 2 ^ 40) (by norm_num) h0
    (by push_cast; exact h1)
  have hr0 : 0 ≤ nearest64 (f / m) * 9 := mul_nonneg hq.2.1 (by norm_num)
  have hr1 : nearest64 (f / m) * 9 ≤ ((2 ^ 44 : ℕ) : ℚ) := by
    have := hq.2.2
    push_cast at this ⊢
    linarith
  have hp := JSNumber.round64_of_bounds (k := 2 ^ 44) (by norm_num) hr0 hr1
  have hfl : 0 ≤ ⌊nearest64 (nearest64 (f / m) * 9)⌋ := Int.floor_nonneg.2 hp.2.1
  constructor
  · rw [JSValue.length_sub_one colors hlen, JSNumber.div_fin f m hm, hq.1, JSNumber.mul_fin,
      hp.1]
    rfl
  · rw [getColorForFrequency_resolved f m hm name colors h, hq.1, JSNumber.mul_fin, hp.1,
      JSValue.get_array_floor, if_pos hfl]

/-- The binary64 value nearest to `10 / 9`; it lies above `10 / 9`. -/
theorem nearest64_ten_ninths : nearest64 (10 / 9) = 5003999585967218 * 2 ^ (-52 : ℤ) := by
  have h := nearest64_eval_of_pos (x := 10 / 9) (e := 0) (n := 5003999585967218) (by norm_num)
    (by norm_num) (Or.inr (by norm_num)) (by norm_num) (by norm_num) (by norm_num)
  rw [h]
  norm_num

/-- Nine times the binary64 value nearest to `10 / 9` rounds to `10`. -/
theorem nearest64_nine_ten_ninths :
    nearest64 (5003999585967218 * 2 ^ (-52 : ℤ) * 9) = 10 := by
  have h := nearest64_eval_of_pos (x := 5003999585967218 * 2 ^ (-52 : ℤ) * 9) (e := 3)
    (n := 5629499534213120) (by norm_num) (by norm_num) (Or.inr (by norm_num)) (by norm_num)
    (by norm_num) (by norm_num)
  rw [h]
  norm_num

/-- The largest binary64 value below 1. -/
theorem nearest64_pred_one : nearest64 (1 - 2 ^ (-53 : ℤ)) = 1 - 2 ^ (-53 : ℤ) :=
  nearest64_eq_self_of_pos (e := -1) (n := 2 ^ 53 - 1) (by norm_num) (by norm_num)
    (Or.inr (by norm_num)) (by norm_num) (by norm_num)

/-- Nine times the largest binary64 value below 1 rounds to the largest one below 9. -/
theorem nearest64_nine_pred_one :
    nearest64 ((1 - 2 ^ (-53 : ℤ)) * 9) = 9 - 2 ^ (-49 : ℤ) := by
  have h := nearest64_eval_of_pos (x := (1 - 2 ^ (-53 : ℤ)) * 9) (e := 3)
    (n := 5066549580791807) (by norm_num) (by norm_num) (Or.inr (by norm_num)) (by norm_num)
    (by norm_num) (by norm_num)
  rw [h]
  norm_num

/-- A negative rounded quotient gives a negative or infinite index: the result is `undefined`. -/
theorem getColorForFrequency_none_of_neg (f m : ℚ) (hm : m ≠ 0) (name : String)
    (colors : List String)
    (h : (getProperty name).or (getProperty "default") = .array colors)
    (hneg : nearest64 (f / m) < 0) :
    getColorForFrequency (.fin f) (.fin m) (some name) = none := by
  rw [getColorForFrequency_resolved f m hm name colors h]
  have hpos : (0 : ℚ) < 2 ^ 1024 := by positivity
  rcases JSNumber.round64_cases (f / m) with ⟨_, h2⟩ | ⟨h1, _⟩ | ⟨h1, _, _⟩
  · linarith
  · rw [h1]; rfl
  · rw [h1, JSNumber.mul_fin]
    have hr := nearest64_mul_nine_neg (nearest64_le_of_neg hneg)
    rcases JSNumber.round64_cases (nearest64 (f / m) * 9) with ⟨_, h3⟩ | ⟨h2, _⟩ | ⟨h2, _, _⟩
    · linarith
    · rw [h2]; rfl
    · rw [h2, JSValue.get_array_floor, if_neg]
      exact not_le.2 (Int.floor_lt.2 (by simpa using hr))

/-- A rounded quotient of at least `c`, where `9 * c ≥ 10`, gives an index of 10 or more, or an
infinite one: the result is `undefined`. -/
theorem getColorForFrequency_none_of_ge (f m c : ℚ) (hm : m ≠ 0) (name : String)
    (colors : List String)
    (h : (getProperty name).or (getProperty "default") = .array colors)
    (hc : 10 ≤ c * 9) (hge : c ≤ nearest64 (f / m)) :
    getColorForFrequency (.fin f) (.fin m) (some name) = none := by
  have hlen := resolve_array_length name colors h
  rw [getColorForFrequency_resolved f m hm name colors h]
  have hpos : (0 : ℚ) < 2 ^ 1024 := by positivity
  rcases JSNumber.round64_cases (f / m) with ⟨h1, _⟩ | ⟨_, h2⟩ | ⟨h1, _, _⟩
  · rw [h1]; rfl
  · linarith
  · rw [h1, JSNumber.mul_fin]
    have hr : ((10 : ℕ) : ℚ) ≤ nearest64 (nearest64 (f / m) * 9) :=
      natCast_le_nearest64 (by norm_num) (by push_cast; linarith)
    push_cast at hr
    rcases JSNumber.round64_cases (nearest64 (f / m) * 9) with ⟨h2, _⟩ | ⟨_, h3⟩ | ⟨h2, _, _⟩
    · rw [h2]; rfl
    · linarith
    · have hfl : 10 ≤ ⌊nearest64 (nearest64 (f / m) * 9)⌋ := Int.le_floor.2 (by simpa using hr)
      rw [h2, JSValue.get_array_floor, if_pos (by omega)]
      apply List.getElem?_eq_none
      omega

/-- A positive binary64 value is an integer below `2 ^ 53` times the spacing of its binade. -/
theorem isBinary64_mantissa {x : ℚ} (hx : 0 < x) (h : isBinary64 x) :
    ∃ n : ℤ, 0 < n ∧ n < 2 ^ 53 ∧ x = n * 2 ^ (binade x - 52) := by
  have h1 : nearestMagnitude x = x := by
    have := h.1
    unfold nearest64 at this
    rwa [if_pos hx.le] at this
  have hu := ulp_pos x
  have hx2 : (roundHalfEven (x / ulp x) : ℚ) * ulp x = x := h1
  have hq : x / ulp x = (roundHalfEven (x / ulp x) : ℚ) := by
    rw [div_eq_iff hu.ne.symm]; exact hx2.symm
  refine ⟨roundHalfEven (x / ulp x), ?_, ?_, hx2.symm⟩
  · have : (0 : ℚ) < (roundHalfEven (x / ulp x) : ℚ) := by
      rw [← hq]; exact div_pos hx hu
    exact_mod_cast this
  · have h3 : x / ulp x < ((2 ^ 53 : ℤ) : ℚ) := by
      rw [div_lt_iff₀ hu, pow53_mul_ulp]
      exact lt_zpow_binade_succ x
    rw [hq] at h3
    exact_mod_cast h3

/-- The quotient of two binary64 values `0 ≤ f < m` is at most the largest binary64 value
below 1. -/
theorem div_le_pred_one {f m : ℚ} (hf : isBinary64 f) (hm : isBinary64 m) (h0 : 0 ≤ f)
    (hlt : f < m) : f / m ≤ 1 - 2 ^ (-53 : ℤ) := by
  have hmpos : 0 < m := lt_of_le_of_lt h0 hlt
  rcases eq_or_lt_of_le h0 with hz | hfpos
  · rw [← hz]; norm_num
  · obtain ⟨a, ha0, ha, hfa⟩ := isBinary64_mantissa hfpos hf
    obtain ⟨b, hb0, hb, hmb⟩ := isBinary64_mantissa hmpos hm
    have hbin : binade f ≤ binade m := binade_mono hfpos hlt.le
    obtain ⟨k, hk⟩ : ∃ k : ℕ, binade m - 52 = binade f - 52 + k :=
      ⟨(binade m - binade f).toNat, by omega⟩
    have hpow : (2 : ℚ) ^ (binade m - 52) = 2 ^ (binade f - 52) * 2 ^ k := by
      rw [hk, zpow_add₀ (by norm_num : (2 : ℚ) ≠ 0), zpow_natCast]
    have hg : (0 : ℚ) < 2 ^ (binade f - 52) := by positivity
    have hB : m = ((b * 2 ^ k : ℤ) : ℚ) * 2 ^ (binade f - 52) := by
      rw [hmb, hpow]; push_cast; ring
    have hBpos : (0 : ℤ) < b * 2 ^ k := by positivity
    have hab : a < b * 2 ^ k := by
      have h1 : (a : ℚ) * 2 ^ (binade f - 52) < ((b * 2 ^ k : ℤ) : ℚ) * 2 ^ (binade f - 52) := by
        rw [← hfa, ← hB]; exact hlt
      have h2 := lt_of_mul_lt_mul_right h1 hg.le
      exact_mod_cast h2
    have hkey : 2 ^ 53 * a ≤ (2 ^ 53 - 1) * (b * 2 ^ k) := by
      rcases le_or_lt (b * 2 ^ k) (2 ^ 53) with hc | hc
      · nlinarith
      · nlinarith
    have hkeyq : (2 ^ 53 : ℚ) * (a : ℚ) ≤ (2 ^ 53 - 1) * ((b * 2 ^ k : ℤ) : ℚ) := by
      exact_mod_cast hkey
    have hBq : (0 : ℚ) < ((b * 2 ^ k : ℤ) : ℚ) := by exact_mod_cast hBpos
    have hdiv : f / m = (a : ℚ) / ((b * 2 ^ k : ℤ) : ℚ) := by
      have h1 : f / m = ((a : ℚ) * 2 ^ (binade f - 52)) /
          (((b * 2 ^ k : ℤ) : ℚ) * 2 ^ (binade f - 52)) := by
        rw [← hfa, ← hB]
      rw [h1, mul_div_mul_right _ _ hg.ne.symm]
    rw [hdiv, div_le_iff₀ hBq]
    have h53 : (2 : ℚ) ^ (-53 : ℤ) = 1 / 2 ^ 53 := by
      rw [zpow_neg, one_div]; norm_num
    rw [h53]
    have : (1 - 1 / (2 : ℚ) ^ 53) * ((b * 2 ^ k : ℤ) : ℚ) =
        ((2 ^ 53 - 1) * ((b * 2 ^ k : ℤ) : ℚ)) / 2 ^ 53 := by
      field_simp
    rw [this, le_div_iff₀ (by positivity)]
    linarith

/-- The palette named in a statement is the one the lookup with fallback resolves to. -/
theorem resolve_of_palette (name : String) (colors : List String)
    (hpal : getProperty name = .array colors ∨
      (getProperty name = .undefined ∧ colors = colorPalettes.default)) :
    (getProperty name).or (getProperty "default") = .array colors := by
  rcases hpal with h | ⟨h, rfl⟩
  · rw [h]; rfl
  · exact resolve_of_undefined name h

theorem roundHalfEven_eq_zero {x : ℚ} (h0 : 0 ≤ x) (h1 : x ≤ 1 / 2) : roundHalfEven x = 0 := by
  have hfl : ⌊x⌋ = 0 := Int.floor_eq_iff.2 ⟨by simpa using h0, by norm_num; linarith⟩
  unfold roundHalfEven
  rw [hfl]
  rcases lt_or_eq_of_le h1 with h | h
  · rw [if_pos (by simpa using h)]
  · rw [if_neg (by rw [h]; norm_num), if_neg (by rw [h]; norm_num), if_pos (by norm_num)]

theorem one_le_roundHalfEven {x : ℚ} (h : 1 / 2 < x) : 1 ≤ roundHalfEven x := by
  have h0 : 0 ≤ ⌊x⌋ := Int.floor_nonneg.2 (by linarith)
  rcases eq_or_lt_of_le h0 with hz | hpos
  · unfold roundHalfEven
    rw [← hz]
    rw [if_neg (by push_cast; linarith), if_pos (by push_cast; linarith)]
    norm_num
  · exact le_trans (by omega) (floor_le_roundHalfEven x)

/-- A magnitude of at most half the smallest positive binary64 value rounds to zero. -/
theorem nearestMagnitude_eq_zero {x : ℚ} (h0 : 0 ≤ x) (h1 : x ≤ 2 ^ (-1075 : ℤ)) :
    nearestMagnitude x = 0 := by
  rcases eq_or_lt_of_le h0 with hz | hpos
  · rw [← hz]; exact nearestMagnitude_zero
  · have hb : binade x = -1022 := binade_eq hpos le_rfl (Or.inl rfl)
      (lt_of_le_of_lt h1 (zpow_lt_zpow_right₀ (by norm_num) (by norm_num)))
    have hr : roundHalfEven (x / 2 ^ (-1022 - 52 : ℤ)) = 0 := by
      apply roundHalfEven_eq_zero (by positivity)
      rw [div_le_iff₀ (by positivity)]
      have : (1 : ℚ) / 2 * 2 ^ (-1022 - 52 : ℤ) = 2 ^ (-1075 : ℤ) := by
        rw [show (-1075 : ℤ) = -1 + (-1022 - 52) by norm_num,
          zpow_add₀ (by norm_num : (2 : ℚ) ≠ 0)]
        norm_num
      rw [this]; exact h1
    rw [nearestMagnitude_eval hb hr]
    simp

/-- A magnitude above half the smallest positive binary64 value rounds to a positive value. -/
theorem nearestMagnitude_pos {x : ℚ} (h : 2 ^ (-1075 : ℤ) < x) : 0 < nearestMagnitude x := by
  have hpos : 0 < x := lt_trans (by positivity) h
  have hu := ulp_pos x
  rcases eq_or_lt_of_le (le_max_right (Int.log 2 x) (-1022)) with hb | hb
  · have hb' : binade x = -1022 := hb.symm
    have hq : 1 / 2 < x / ulp x := by
      rw [lt_div_iff₀ hu]
      unfold ulp
      rw [hb']
      have : (1 : ℚ) / 2 * 2 ^ (-1022 - 52 : ℤ) = 2 ^ (-1075 : ℤ) := by
        rw [show (-1075 : ℤ) = -1 + (-1022 - 52) by norm_num,
          zpow_add₀ (by norm_num : (2 : ℚ) ≠ 0)]
        norm_num
      rw [this]; exact h
    have h1 := one_le_roundHalfEven hq
    have h2 : (0 : ℚ) < (roundHalfEven (x / ulp x) : ℚ) := by exact_mod_cast (by omega : 0 < roundHalfEven (x / ulp x))
    exact mul_pos h2 hu
  · exact lt_of_lt_of_le (by positivity) (zpow_le_nearestMagnitude hpos hb)

/-- A quotient that underflows: between minus half the smallest positive binary64 value and
zero the rounded value is zero. -/
theorem nearest64_eq_zero_of_small {q : ℚ} (h1 : -2 ^ (-1075 : ℤ) ≤ q) (h2 : q ≤ 0) :
    nearest64 q = 0 := by
  rcases eq_or_lt_of_le h2 with hz | hneg
  · rw [hz]; exact nearest64_zero
  · unfold nearest64
    rw [if_neg (not_le.2 hneg), nearestMagnitude_eq_zero (by linarith) (by linarith)]
    simp

/-- A quotient below minus half the smallest positive binary64 value rounds to a negative
value. -/
theorem nearest64_neg_of_lt {q : ℚ} (h : q < -2 ^ (-1075 : ℤ)) : nearest64 q < 0 := by
  have hpos : (0 : ℚ) < 2 ^ (-1075 : ℤ) := by positivity
  unfold nearest64
  rw [if_neg (not_le.2 (by linarith))]
  have := nearestMagnitude_pos (x := -q) (by linarith)
  linarith

/-- A quotient that rounds to zero selects the first colour. -/
theorem getColorForFrequency_of_zero (f m : ℚ) (hm : m ≠ 0) (name : String)
    (colors : List String)
    (h : (getProperty name).or (getProperty "default") = .array colors)
    (hz : nearest64 (f / m) = 0) :
    getColorForFrequency (.fin f) (.fin m) (some name) = colors[0]? := by
  have hpos : (0 : ℚ) < 2 ^ 1024 := by positivity
  rw [getColorForFrequency_resolved f m hm name colors h,
    JSNumber.round64_eq_fin hz (by linarith) hpos, JSNumber.mul_fin, zero_mul,
    JSNumber.round64_eq_fin nearest64_zero (by linarith) hpos, JSValue.get_array_floor]
  simp

/-- The index of the example `getColorForFrequency(5, 10)`: the quotient `1 / 2` and the product
`9 / 2` are binary64 values, and the floor is 4. -/
theorem index_five_ten : ⌊nearest64 (nearest64 (5 / 10) * 9)⌋ = 4 := by
  have h1 : nearest64 (5 / 10) = 1 / 2 := by
    rw [show (5 : ℚ) / 10 = 1 / 2 by norm_num]; exact nearest64_half
  rw [h1, show (1 : ℚ) / 2 * 9 = 9 / 2 by norm_num, nearest64_nine_halves]
  norm_num

theorem getColorForFrequency_five_ten :
    getColorForFrequency (.fin 5) (.fin 10) (some "default") = some "#f1c40f" := by
  have hres : (getProperty "default").or (getProperty "default") =
      .array colorPalettes.default := by
    rw [getProperty_default]; rfl
  have h := (getColorForFrequency_index 5 10 (by norm_num) "default" _ hres (by norm_num)
    (by norm_num)).2
  rw [h, index_five_ten]
  rfl

/-- Half the smallest positive binary64 value is far below `1 / 16`. -/
theorem tiny_lt_sixteenth : (2 : ℚ) ^ (-1075 : ℤ) < 1 / 16 := by
  have h : (2 : ℚ) ^ (-1075 : ℤ) < 2 ^ (-4 : ℤ) :=
    zpow_lt_zpow_right₀ (by norm_num) (by norm_num)
  have h2 : (2 : ℚ) ^ (-4 : ℤ) = 1 / 16 := by norm_num
  rw [h2] at h
  exact h

/-- With `0 ≤ f ≤ m` the index is a natural number of at most 9 and the colour there is
returned. -/
theorem getColorForFrequency_within (f m : ℚ) (hm : 0 < m) (hf : 0 ≤ f) (hfm : f ≤ m)
    (name : String) (colors : List String)
    (h : (getProperty name).or (getProperty "default") = .array colors) :
    ∃ i : ℕ, i = ⌊nearest64 (nearest64 (f / m) * 9)⌋ ∧ i ≤ 9 ∧
      JSNumber.floor (JSNumber.fin f / JSNumber.fin m * ((JSValue.array colors).length - 1)) =
        JSNumber.fin i ∧
      ∃ hlt : i < colors.length, getColorForFrequency (.fin f) (.fin m) (some name) =
        some colors[i] := by
  have hlen := resolve_array_length name colors h
  have hr0 : 0 ≤ f / m := div_nonneg hf hm.le
  have hr1 : f / m ≤ 1 := (div_le_one hm).2 hfm
  obtain ⟨hI, hget⟩ := getColorForFrequency_index f m hm.ne.symm name colors h hr0
    (le_trans hr1 (by norm_num))
  have hq0 : 0 ≤ nearest64 (f / m) := nearest64_nonneg hr0
  have hq1 : nearest64 (f / m) ≤ 1 := by
    simpa using nearest64_le_natCast (k := 1) (by norm_num) (by simpa using hr1)
  have hp0 : 0 ≤ nearest64 (nearest64 (f / m) * 9) :=
    nearest64_nonneg (mul_nonneg hq0 (by norm_num))
  have hp1 : nearest64 (nearest64 (f / m) * 9) ≤ 9 := by
    have := nearest64_le_natCast (q := nearest64 (f / m) * 9) (k := 9) (by norm_num)
      (by push_cast; linarith)
    simpa using this
  have hfl0 : 0 ≤ ⌊nearest64 (nearest64 (f / m) * 9)⌋ := Int.floor_nonneg.2 hp0
  have hfl1 : ⌊nearest64 (nearest64 (f / m) * 9)⌋ ≤ 9 := by
    have h1 : ((⌊nearest64 (nearest64 (f / m) * 9)⌋ : ℤ) : ℚ) ≤ ((9 : ℤ) : ℚ) :=
      le_trans (Int.floor_le _) (by simpa using hp1)
    exact Int.cast_le.1 h1
  have hcast : ((⌊nearest64 (nearest64 (f / m) * 9)⌋.toNat : ℕ) : ℤ) =
      ⌊nearest64 (nearest64 (f / m) * 9)⌋ := Int.toNat_of_nonneg hfl0
  have hlt : ⌊nearest64 (nearest64 (f / m) * 9)⌋.toNat < colors.length := by omega
  refine ⟨⌊nearest64 (nearest64 (f / m) * 9)⌋.toNat, hcast, by omega, ?_, hlt, ?_⟩
  · have hq : ((⌊nearest64 (nearest64 (f / m) * 9)⌋.toNat : ℕ) : ℚ) =
        ((⌊nearest64 (nearest64 (f / m) * 9)⌋ : ℤ) : ℚ) := by
      have := congrArg (Int.cast (R := ℚ)) hcast
      rwa [Int.cast_natCast] at this
    rw [hI, hq]
  · rw [hget, List.getElem?_eq_getElem hlt]

theorem tiny_half : (2 : ℚ) ^ (-1075 : ℤ) = 2 ^ (-1074 : ℤ) / 2 := by
  rw [show (-1075 : ℤ) = -1074 + -1 by norm_num, zpow_add₀ (by norm_num : (2 : ℚ) ≠ 0)]
  norm_num

/-- The binary64 value written `0.9`. -/
theorem isBinary64_nine_tenths : isBinary64 (8106479329266893 / 9007199254740992) := by
  refine ⟨nearest64_eq_self_of_pos (e := -1) (n := 8106479329266893) (by norm_num)
    (by norm_num) (Or.inr (by norm_num)) (by norm_num) (by norm_num), ?_⟩
  rw [abs_lt]
  constructor <;> norm_num

/-- The quotient `1 / 0.9` rounds to the binary64 value nearest to `10 / 9`, which lies above
`10 / 9`. -/
theorem nearest64_one_div_nine_tenths :
    nearest64 (1 / (8106479329266893 / 9007199254740992)) =
      5003999585967218 * 2 ^ (-52 : ℤ) := by
  have h := nearest64_eval_of_pos (x := 1 / (8106479329266893 / 9007199254740992)) (e := 0)
    (n := 5003999585967218) (by norm_num) (by norm_num) (Or.inr (by norm_num)) (by norm_num)
    (by norm_num) (by norm_num)
  rw [h]
  norm_num

theorem isBinary64_neg_min : isBinary64 (-(2 ^ (-1074 : ℤ))) := by
  refine ⟨by rw [nearest64_neg, nearest64_min], ?_⟩
  rw [abs_neg, abs_of_pos (by positivity)]
  exact lt_of_lt_of_le (zpow_lt_zpow_right₀ (by norm_num) (by norm_num : (-1074 : ℤ) < 0))
    (by norm_num)

/-- The tenth element and the last one of a list of ten. -/
theorem getElem?_nine_eq_getLast? (colors : List String) (hlen : colors.length = 10) :
    colors[9]? = colors.getLast? ∧ colors[10]? = none ∧ colors[0]? = colors.head? ∧
      ∃ last, colors.getLast? = some last := by
  match colors, hlen with
  | [c0, c1, c2, c3, c4, c5, c6, c7, c8, c9], _ => exact ⟨by simp, by simp, by simp, c9, by simp⟩

theorem isBinary64_one : isBinary64 1 := by
  refine ⟨by simpa using nearest64_natCast 1 (by norm_num), ?_⟩
  rw [abs_one]
  norm_num

/-! ## The claims -/

/-- C1: for each of the four palette names `default`, `pastel`, `dark`, `nature` and every
maximum `m > 0`, `getColorForFrequency(0, m, name)` returns the first colour (index 0) of the
palette of that name. -/
theorem getColorForFrequency_zero (name : String) (m : ℚ)
    (hname : name = "default" ∨ name = "pastel" ∨ name = "dark" ∨ name = "nature")
    (hm : 0 < m) :
    ∃ first rest, getProperty name = .array (first :: rest) ∧
      getColorForFrequency (.fin 0) (.fin m) (some name) = some first := by
  obtain ⟨colors, hp, hlen, hres⟩ := resolve_of_defined name hname
  have hz : nearest64 (0 / m) = 0 := by rw [zero_div]; exact nearest64_zero
  rw [getColorForFrequency_of_zero 0 m hm.ne.symm name colors hres hz]
  match colors, hlen with
  | first :: rest, _ => exact ⟨first, rest, hp, by simp⟩

theorem getColorForFrequency_zero_witness :
    (0 : ℚ) < 7 ∧
    ∃ first rest, getProperty "nature" = .array (first :: rest) ∧
      getColorForFrequency (.fin 0) (.fin 7) (some "nature") = some first :=
  ⟨by norm_num, getColorForFrequency_zero "nature" 7 (by simp) (by norm_num)⟩

/-- C2: for each of the four palette names and every maximum `m > 0`,
`getColorForFrequency(m, m, name)` returns the last colour of the palette of that name: the ratio
is 1 and the index is `colorCount - 1`. -/
theorem getColorForFrequency_max (name : String) (m : ℚ)
    (hname : name = "default" ∨ name = "pastel" ∨ name = "dark" ∨ name = "nature")
    (hm : 0 < m) :
    ∃ colors last, getProperty name = .array colors ∧ colors.getLast? = some last ∧
      colors[colors.length - 1]? = some last ∧
      JSNumber.fin m / JSNumber.fin m = JSNumber.fin 1 ∧
      getColorForFrequency (.fin m) (.fin m) (some name) = some last := by
  obtain ⟨colors, hp, hlen, hres⟩ := resolve_of_defined name hname
  have hone : nearest64 (m / m) = 1 := by
    rw [div_self hm.ne.symm]
    simpa using nearest64_natCast 1 (by norm_num)
  have hnine : nearest64 (nearest64 (m / m) * 9) = 9 := by
    rw [hone, one_mul]
    simpa using nearest64_natCast 9 (by norm_num)
  have hdiv : JSNumber.fin m / JSNumber.fin m = JSNumber.fin 1 := by
    rw [JSNumber.div_fin m m hm.ne.symm]
    exact JSNumber.round64_eq_fin hone (by norm_num) (by norm_num)
  have hidx := (getColorForFrequency_index m m hm.ne.symm name colors hres
    (by rw [div_self hm.ne.symm]; norm_num) (by rw [div_self hm.ne.symm]; norm_num)).2
  rw [hnine] at hidx
  rw [hidx]
  match colors, hlen with
  | [c0, c1, c2, c3, c4, c5, c6, c7, c8, c9], _ =>
    exact ⟨_, c9, hp, by simp, by simp, hdiv, by norm_num; rfl⟩

theorem getColorForFrequency_max_witness :
    (0 : ℚ) < 3 ∧
    ∃ colors last, getProperty "pastel" = .array colors ∧ colors.getLast? = some last ∧
      colors[colors.length - 1]? = some last ∧
      JSNumber.fin 3 / JSNumber.fin 3 = JSNumber.fin 1 ∧
      getColorForFrequency (.fin 3) (.fin 3) (some "pastel") = some last :=
  ⟨by norm_num, getColorForFrequency_max "pastel" 3 (by simp) (by norm_num)⟩

/-- C3 at the failing inputs: `getGradientColors` and `getColorForFrequency` are names of no
palette, yet they are properties of the registry object, so the fallback to the default palette
is not taken. `getGradientColors('getGradientColors')` throws a `TypeError` where
`getGradientColors('default')` returns the default gradient, and
`getColorForFrequency(5, 10, 'getColorForFrequency')` is `undefined` where the default palette
gives `'#f1c40f'`. An inherited name such as `toString` behaves the same way. -/
theorem unknown_name_not_default :
    getGradientColors (some "getGradientColors") = .error JSError.typeError ∧
    getGradientColors (some "toString") = .error JSError.typeError ∧
    getGradientColors (some "default") =
      .ok ⟨.array colorPalettes.default,
        "linear-gradient(45deg, #2c3e50, #e74c3c, #3498db, #2ecc71, #f1c40f, #9b59b6, #1abc9c, #e67e22, #34495e, #16a085)"⟩ ∧
    getColorForFrequency (.fin 5) (.fin 10) (some "getColorForFrequency") = none ∧
    getColorForFrequency (.fin 5) (.fin 10) (some "default") = some "#f1c40f" := by
  refine ⟨rfl, rfl, rfl, ?_, ?_⟩
  · have hp : getProperty "getColorForFrequency" = .function 2 := by decide
    simp [getColorForFrequency, hp, JSValue.or, JSValue.get]
  · exact getColorForFrequency_five_ten

/-- C4 at the failing input and on the palette names: `toString` and `getGradientColors` are
properties of the registry object and no palettes, so `getColorForFrequency(5, 10, 'toString')`
and `getColorForFrequency(10, 10, 'getGradientColors')` are `undefined` although
`0 ≤ f ≤ m`. For a name that does resolve to a palette (one of the four palettes under its own
name, the default palette under a name that is no property of the object), every maximum
`m > 0` and every frequency `0 ≤ f ≤ m`, the computed index
`floor(f / m * (colorCount - 1))` is an integer in `[0, colorCount - 1]` and the colour of that
palette at this position is returned. -/
theorem getColorForFrequency_in_range :
    getColorForFrequency (.fin 5) (.fin 10) (some "toString") = none ∧
    getColorForFrequency (.fin 10) (.fin 10) (some "getGradientColors") = none ∧
    ∀ (f m : ℚ) (name : String) (colors : List String), 0 < m → 0 ≤ f → f ≤ m →
      (getProperty name = .array colors ∨
        (getProperty name = .undefined ∧ colors = colorPalettes.default)) →
      ∃ i : ℕ,
        JSNumber.floor (JSNumber.fin f / JSNumber.fin m * ((JSValue.array colors).length - 1)) =
          JSNumber.fin i ∧
        i ≤ colors.length - 1 ∧
        ∃ c ∈ colors, colors[i]? = some c ∧
          getColorForFrequency (.fin f) (.fin m) (some name) = some c := by
  refine ⟨?_, ?_, ?_⟩
  · have hp : getProperty "toString" = .function 0 := by decide
    simp [getColorForFrequency, hp, JSValue.or, JSValue.get]
  · have hp : getProperty "getGradientColors" = .function 0 := by decide
    simp [getColorForFrequency, hp, JSValue.or, JSValue.get]
  · intro f m name colors hm hf hfm hpal
    have hres := resolve_of_palette name colors hpal
    have hlen := resolve_array_length name colors hres
    obtain ⟨i, -, hi9, hI, hlt, hget⟩ :=
      getColorForFrequency_within f m hm hf hfm name colors hres
    exact ⟨i, hI, by omega, colors[i], List.getElem_mem _, List.getElem?_eq_getElem hlt, hget⟩

/-- C5, as stated, fails: with the default palette and maximum 10, the frequency 20 gives the
index 18 and the frequency -1 gives the index -1; neither is clamped and the result is
`undefined` both times. -/
theorem getColorForFrequency_not_clamped :
    (0 : ℚ) < 10 ∧
    getColorForFrequency (.fin 20) (.fin 10) (some "default") = none ∧
    getColorForFrequency (.fin (-1)) (.fin 10) (some "default") = none ∧
    ⌊(20 : ℚ) / 10 * ((colorPalettes.default.length : ℚ) - 1)⌋ = 18 ∧
    ⌊(-1 : ℚ) / 10 * ((colorPalettes.default.length : ℚ) - 1)⌋ = -1 := by
  have h18 : ⌊(20 : ℚ) / 10 * ((colorPalettes.default.length : ℚ) - 1)⌋ = 18 := by
    rw [Int.floor_eq_iff]; simp [colorPalettes.default]; norm_num
  have hneg : ⌊(-1 : ℚ) / 10 * ((colorPalettes.default.length : ℚ) - 1)⌋ = -1 := by
    rw [Int.floor_eq_iff]; simp [colorPalettes.default]; norm_num
  have hres : (getProperty "default").or (getProperty "default") =
      .array colorPalettes.default := by
    rw [getProperty_default]; rfl
  refine ⟨by norm_num, ?_, ?_, h18, hneg⟩
  · refine getColorForFrequency_none_of_ge 20 10 2 (by norm_num) "default" _ hres (by norm_num) ?_
    have := natCast_le_nearest64 (q := (20 : ℚ) / 10) (k := 2) (by norm_num) (by norm_num)
    simpa using this
  · refine getColorForFrequency_none_of_neg (-1) 10 (by norm_num) "default" _ hres ?_
    exact nearest64_neg_of_lt (by have := tiny_lt_sixteenth; linarith)

/-- C5, amended: for every maximum `m > 0`, every frequency `f` and every name that resolves to
a palette (one of the four palettes under its own name, the default palette under a name that
is no property of the registry object), the computed index `floor(f / m * (colorCount - 1))` is
used as it is, without clamping. The index is an integer or not a finite number; when it is an
integer in `[0, colorCount - 1]` the colour of that palette at this position is returned, and
in every other case the result is `undefined`. So it is for every frequency of at least twice
the maximum and for every frequency of at most minus the maximum. -/
theorem getColorForFrequency_unclamped (f m : ℚ) (name : String) (colors : List String)
    (hm : 0 < m)
    (hpal : getProperty name = .array colors ∨
      (getProperty name = .undefined ∧ colors = colorPalettes.default)) :
    ((JSNumber.floor
        (JSNumber.fin f / JSNumber.fin m * ((JSValue.array colors).length - 1))).isFinite = false ∨
      ∃ i : ℤ, JSNumber.floor
        (JSNumber.fin f / JSNumber.fin m * ((JSValue.array colors).length - 1)) =
          JSNumber.fin i) ∧
    (∀ i : ℤ, JSNumber.floor
        (JSNumber.fin f / JSNumber.fin m * ((JSValue.array colors).length - 1)) =
          JSNumber.fin i →
      (0 ≤ i ∧ i ≤ (colors.length : ℤ) - 1 →
        ∃ c ∈ colors, colors[i.toNat]? = some c ∧
          getColorForFrequency (.fin f) (.fin m) (some name) = some c) ∧
      (¬ (0 ≤ i ∧ i ≤ (colors.length : ℤ) - 1) →
        getColorForFrequency (.fin f) (.fin m) (some name) = none)) ∧
    ((JSNumber.floor
        (JSNumber.fin f / JSNumber.fin m * ((JSValue.array colors).length - 1))).isFinite = false →
      getColorForFrequency (.fin f) (.fin m) (some name) = none) ∧
    (m * 2 ≤ f → getColorForFrequency (.fin f) (.fin m) (some name) = none) ∧
    (f ≤ -m → getColorForFrequency (.fin f) (.fin m) (some name) = none) := by
  have hres := resolve_of_palette name colors hpal
  have hbig : m * 2 ≤ f → getColorForFrequency (.fin f) (.fin m) (some name) = none := by
    intro h
    refine getColorForFrequency_none_of_ge f m 2 hm.ne.symm name colors hres (by norm_num) ?_
    have h2 : ((2 : ℕ) : ℚ) ≤ f / m := by
      rw [le_div_iff₀ hm]; push_cast; linarith
    simpa using natCast_le_nearest64 (by norm_num) h2
  have hsmall : f ≤ -m → getColorForFrequency (.fin f) (.fin m) (some name) = none := by
    intro h
    refine getColorForFrequency_none_of_neg f m hm.ne.symm name colors hres ?_
    have h2 : f / m ≤ -1 := by
      rw [div_le_iff₀ hm]; linarith
    exact nearest64_neg_of_lt (by have := tiny_lt_sixteenth; linarith)
  have hget : getColorForFrequency (.fin f) (.fin m) (some name) =
      (JSValue.array colors).get (JSNumber.floor
        (JSNumber.fin f / JSNumber.fin m * ((JSValue.array colors).length - 1))) := by
    unfold getColorForFrequency
    simp only [Option.getD_some, hres]
  refine ⟨?_, ?_, ?_, hbig, hsmall⟩
  · generalize JSNumber.fin f / JSNumber.fin m * ((JSValue.array colors).length - 1) = x
    cases x with
    | fin q => exact Or.inr ⟨⌊q⌋, rfl⟩
    | nan => exact Or.inl rfl
    | posInf => exact Or.inl rfl
    | negInf => exact Or.inl rfl
  · rw [hget]
    generalize JSNumber.fin f / JSNumber.fin m * ((JSValue.array colors).length - 1) = x
    intro i hi
    rw [hi]
    have hval : (JSValue.array colors).get (JSNumber.fin (i : ℚ)) =
        if 0 ≤ i then colors[i.toNat]? else none := by
      simp [JSValue.get, Rat.isInt]
    rw [hval]
    constructor
    · rintro ⟨h0, h1⟩
      have hlt : i.toNat < colors.length := by omega
      exact ⟨colors[i.toNat], List.getElem_mem _, List.getElem?_eq_getElem hlt,
        by rw [if_pos h0, List.getElem?_eq_getElem hlt]⟩
    · intro hout
      by_cases h0 : 0 ≤ i
      · rw [if_pos h0]
        apply List.getElem?_eq_none
        have : ¬ i ≤ (colors.length : ℤ) - 1 := fun h => hout ⟨h0, h⟩
        omega
      · rw [if_neg h0]
  · rw [hget]
    generalize JSNumber.fin f / JSNumber.fin m * ((JSValue.array colors).length - 1) = x
    intro hfin
    cases hx : JSNumber.floor x with
    | fin q => rw [hx] at hfin; simp [JSNumber.isFinite] at hfin
    | nan => rfl
    | posInf => rfl
    | negInf => rfl

theorem getColorForFrequency_unclamped_witness :
    ((0 : ℚ) < 10 ∧ (getProperty "nature" = .array nature ∨
      (getProperty "nature" = .undefined ∧ nature = colorPalettes.default))) ∧
    (((JSNumber.floor
        (JSNumber.fin 25 / JSNumber.fin 10 * ((JSValue.array nature).length - 1))).isFinite = false ∨
      ∃ i : ℤ, JSNumber.floor
        (JSNumber.fin 25 / JSNumber.fin 10 * ((JSValue.array nature).length - 1)) =
          JSNumber.fin i) ∧
    (∀ i : ℤ, JSNumber.floor
        (JSNumber.fin 25 / JSNumber.fin 10 * ((JSValue.array nature).length - 1)) =
          JSNumber.fin i →
      (0 ≤ i ∧ i ≤ (nature.length : ℤ) - 1 →
        ∃ c ∈ nature, nature[i.toNat]? = some c ∧
          getColorForFrequency (.fin 25) (.fin 10) (some "nature") = some c) ∧
      (¬ (0 ≤ i ∧ i ≤ (nature.length : ℤ) - 1) →
        getColorForFrequency (.fin 25) (.fin 10) (some "nature") = none)) ∧
    ((JSNumber.floor
        (JSNumber.fin 25 / JSNumber.fin 10 * ((JSValue.array nature).length - 1))).isFinite = false →
      getColorForFrequency (.fin 25) (.fin 10) (some "nature") = none) ∧
    ((10 : ℚ) * 2 ≤ 25 → getColorForFrequency (.fin 25) (.fin 10) (some "nature") = none) ∧
    ((25 : ℚ) ≤ -10 → getColorForFrequency (.fin 25) (.fin 10) (some "nature") = none)) :=
  ⟨⟨by norm_num, Or.inl (by decide)⟩,
    getColorForFrequency_unclamped 25 10 "nature" nature (by norm_num) (Or.inl (by decide))⟩

/-- C6 at the failing input and on the palette names: `getColorForFrequency` and `constructor`
are properties of the registry object and no palettes, so `getGradientColors` throws a
`TypeError` for them. For a name that does resolve to a palette (one of the four palettes under
its own name, as `pastel` here, and the default palette under a name that is no property of the
object), `getGradientColors(name).colors` is that palette and
`getGradientColors(name).cssGradient` is the text `linear-gradient(45deg, ` followed by the
colours of that palette in order, joined by `, `, followed by `)`. -/
theorem getGradientColors_spec :
    getGradientColors (some "getColorForFrequency") = .error JSError.typeError ∧
    getGradientColors (some "constructor") = .error JSError.typeError ∧
    getGradientColors (some "pastel") =
      .ok ⟨.array pastel,
        "linear-gradient(45deg, #FFB3BA, #BAFFC9, #BAE1FF, #FFFFBA, #FFB3F7, #B3FFF9, #FFC8B3, #B3FFB3, #E0B3FF, #FFE4B3)"⟩ ∧
    ∀ (name : String) (colors : List String),
      (getProperty name = .array colors ∨
        (getProperty name = .undefined ∧ colors = colorPalettes.default)) →
      getGradientColors (some name) =
        .ok ⟨.array colors, "linear-gradient(45deg, " ++ ", ".intercalate colors ++ ")"⟩ := by
  refine ⟨rfl, rfl, rfl, ?_⟩
  intro name colors hpal
  have hres := resolve_of_palette name colors hpal
  simp only [getGradientColors, Option.getD_some, hres, JSValue.join_array]

/-- C7: with the observed hour as an explicit input, `getTimeBasedPalette` returns the nature
palette exactly when `6 ≤ hour < 12`, the default palette exactly when `12 ≤ hour < 17`, the
pastel palette exactly when `17 ≤ hour < 20`, and the dark palette exactly when `hour ≥ 20` or
`hour < 6`; so nature for 6 and 11, default for 12 and 16, pastel for 17 and 19, dark for 20, 23
and 0. -/
theorem getTimeBasedPalette_spec :
    (∀ hour : ℤ,
      (getTimeBasedPalette hour = nature ↔ 6 ≤ hour ∧ hour < 12) ∧
      (getTimeBasedPalette hour = colorPalettes.default ↔ 12 ≤ hour ∧ hour < 17) ∧
      (getTimeBasedPalette hour = pastel ↔ 17 ≤ hour ∧ hour < 20) ∧
      (getTimeBasedPalette hour = dark ↔ 20 ≤ hour ∨ hour < 6)) ∧
    getTimeBasedPalette 6 = nature ∧ getTimeBasedPalette 11 = nature ∧
    getTimeBasedPalette 12 = colorPalettes.default ∧
    getTimeBasedPalette 16 = colorPalettes.default ∧
    getTimeBasedPalette 17 = pastel ∧ getTimeBasedPalette 19 = pastel ∧
    getTimeBasedPalette 20 = dark ∧ getTimeBasedPalette 23 = dark ∧
    getTimeBasedPalette 0 = dark := by
  obtain ⟨h1, h2, h3, h4, h5, h6⟩ := palettes_distinct
  refine ⟨?_, by decide, by decide, by decide, by decide, by decide, by decide, by decide,
    by decide, by decide⟩
  intro hour
  unfold getTimeBasedPalette
  split_ifs with a b c
  · refine ⟨⟨fun _ => ⟨a.1, a.2⟩, fun _ => rfl⟩, ⟨fun h => absurd h h1, fun h => ?_⟩,
      ⟨fun h => absurd h h2, fun h => ?_⟩, ⟨fun h => absurd h h3, fun h => ?_⟩⟩ <;> omega
  · refine ⟨⟨fun h => absurd h.symm h1, fun h => ?_⟩, ⟨fun _ => ⟨b.1, b.2⟩, fun _ => rfl⟩,
      ⟨fun h => absurd h h4, fun h => ?_⟩, ⟨fun h => absurd h h5, fun h => ?_⟩⟩ <;> omega
  · refine ⟨⟨fun h => absurd h.symm h2, fun h => ?_⟩, ⟨fun h => absurd h.symm h4, fun h => ?_⟩,
      ⟨fun _ => ⟨c.1, c.2⟩, fun _ => rfl⟩, ⟨fun h => absurd h h6, fun h => ?_⟩⟩ <;> omega
  · refine ⟨⟨fun h => absurd h.symm h3, fun h => ?_⟩, ⟨fun h => absurd h.symm h5, fun h => ?_⟩,
      ⟨fun h => absurd h.symm h6, fun h => ?_⟩, ⟨fun _ => ?_, fun _ => rfl⟩⟩ <;> omega

/-- C8: the registry holds exactly four palettes, under the names `default`, `pastel`, `dark`
and `nature`; each is a sequence of exactly 10 colour strings, hence not empty; and the default
entry exists. -/
theorem registry_palettes :
    (ownProperties.filter fun p => p.2.isArray).map Prod.fst =
      ["default", "pastel", "dark", "nature"] ∧
    (∀ key xs, getProperty key = .array xs ↔
      (key = "default" ∧ xs = colorPalettes.default) ∨ (key = "pastel" ∧ xs = pastel) ∨
      (key = "dark" ∧ xs = dark) ∨ (key = "nature" ∧ xs = nature)) ∧
    (∀ key xs, getProperty key = .array xs → xs.length = 10 ∧ 1 ≤ xs.length) ∧
    getProperty "default" = .array colorPalettes.default := by
  refine ⟨by decide, getProperty_array_iff, ?_, getProperty_default⟩
  intro key xs h
  rcases (getProperty_array_iff key xs).1 h with
    ⟨_, rfl⟩ | ⟨_, rfl⟩ | ⟨_, rfl⟩ | ⟨_, rfl⟩ <;> decide

/-- C9: the default palette has 10 entries, and `getColorForFrequency(5, 10, 'default')`
computes the ratio 0.5 and the index `floor(0.5 * 9) = 4` and returns `'#f1c40f'`. -/
theorem getColorForFrequency_example :
    colorPalettes.default.length = 10 ∧
    JSNumber.fin 5 / JSNumber.fin 10 = JSNumber.fin (1 / 2) ∧
    JSNumber.floor (JSNumber.fin (1 / 2) * (JSValue.length (.array colorPalettes.default) - 1)) =
      JSNumber.fin 4 ∧
    colorPalettes.default[4]? = some "#f1c40f" ∧
    getColorForFrequency (.fin 5) (.fin 10) (some "default") = some "#f1c40f" := by
  have hhalf : JSNumber.fin 5 / JSNumber.fin 10 = JSNumber.fin (1 / 2) := by
    rw [JSNumber.div_fin 5 10 (by norm_num), show (5 : ℚ) / 10 = 1 / 2 by norm_num]
    exact JSNumber.round64_eq_fin nearest64_half (by norm_num) (by norm_num)
  refine ⟨rfl, hhalf, ?_, rfl, getColorForFrequency_five_ten⟩
  rw [JSValue.length_sub_one colorPalettes.default rfl, JSNumber.mul_fin,
    show (1 : ℚ) / 2 * 9 = 9 / 2 by norm_num,
    JSNumber.round64_eq_fin nearest64_nine_halves (by norm_num) (by norm_num)]
  simp only [JSNumber.floor]
  norm_num

/-- C10: an omitted palette argument stands for `'default'`: `getColorForFrequency(f, m)` equals
`getColorForFrequency(f, m, 'default')` for all numbers `f` and `m`, and `getGradientColors()`
equals `getGradientColors('default')`. -/
theorem omitted_palette_is_default :
    (∀ f m : JSNumber,
      getColorForFrequency f m none = getColorForFrequency f m (some "default")) ∧
    getGradientColors none = getGradientColors (some "default") :=
  ⟨fun _ _ => rfl, rfl⟩

/-- C11: every colour value of each of the four palettes is a string of the form `#RRGGBB`:
exactly 7 characters, a `#` followed by six hexadecimal digits. -/
theorem palettes_hex_colors :
    colorPalettes.default.all (fun c => isHexColor c && c.length == 7) = true ∧
    pastel.all (fun c => isHexColor c && c.length == 7) = true ∧
    dark.all (fun c => isHexColor c && c.length == 7) = true ∧
    nature.all (fun c => isHexColor c && c.length == 7) = true ∧
    (∀ key xs, getProperty key = .array xs →
      xs.all (fun c => isHexColor c && c.length == 7) = true) := by
  have h1 : colorPalettes.default.all (fun c => isHexColor c && c.length == 7) = true := by
    decide
  have h2 : pastel.all (fun c => isHexColor c && c.length == 7) = true := by decide
  have h3 : dark.all (fun c => isHexColor c && c.length == 7) = true := by decide
  have h4 : nature.all (fun c => isHexColor c && c.length == 7) = true := by decide
  refine ⟨h1, h2, h3, h4, ?_⟩
  intro key xs h
  rcases (getProperty_array_iff key xs).1 h with
    ⟨_, rfl⟩ | ⟨_, rfl⟩ | ⟨_, rfl⟩ | ⟨_, rfl⟩
  · exact h1
  · exact h2
  · exact h3
  · exact h4

/-- C12: when `maxFrequency` is 0, for every frequency and every palette name (given or
omitted) `getColorForFrequency` runs to its end without an error: the ratio is not a finite
number (`NaN` or an infinity, from the division by zero), the index computed from it is not a
finite number either, so it is no position of the palette, and the result is `undefined`. -/
theorem getColorForFrequency_max_zero (f : JSNumber) (name : Option String) :
    (f / JSNumber.fin 0).isFinite = false ∧
    (JSNumber.floor (f / JSNumber.fin 0 *
      (((getProperty (name.getD "default")).or (getProperty "default")).length - 1))).isFinite
        = false ∧
    getColorForFrequency f (.fin 0) name = none := by
  have hratio : (f / JSNumber.fin 0).isFinite = false := by
    cases f <;> simp [JSNumber.div_def, JSNumber.div, JSNumber.isFinite]
    split_ifs <;> rfl
  have hmul : ∀ r k : JSNumber, r.isFinite = false → (JSNumber.floor (r * k)).isFinite = false := by
    intro r k hr
    cases r <;> cases k <;>
      simp_all [JSNumber.mul_def, JSNumber.mul, JSNumber.isFinite, JSNumber.floor,
        JSNumber.infTimes]
    all_goals split_ifs <;> rfl
  have hget : ∀ (v : JSValue) (i : JSNumber), i.isFinite = false → v.get i = none := by
    intro v i hi
    cases i <;> cases v <;> simp_all [JSValue.get, JSNumber.isFinite]
  have hidx := hmul (f / JSNumber.fin 0)
    (((getProperty (name.getD "default")).or (getProperty "default")).length - 1) hratio
  exact ⟨hratio, hidx, hget _ _ hidx⟩

/-- C13, as stated, fails. With the binary64 value written `0.9` as maximum, the frequency 1
lies strictly between the maximum and `maximum * 10 / 9`, yet the quotient rounds up, the
product rounds to 10 and the result is `undefined`, not the last colour. With the maximum 10,
the negative frequency `-2 ^ -1074` has a quotient that underflows to zero, and the first colour
of the default palette is returned, not `undefined`. -/
theorem getColorForFrequency_boundary_rounding :
    isBinary64 (8106479329266893 / 9007199254740992) ∧
    (0 : ℚ) < 8106479329266893 / 9007199254740992 ∧
    (8106479329266893 / 9007199254740992 : ℚ) < 1 ∧
    (1 : ℚ) < 8106479329266893 / 9007199254740992 * 10 / 9 ∧
    getColorForFrequency (.fin 1) (.fin (8106479329266893 / 9007199254740992))
      (some "default") = none ∧
    isBinary64 (-(2 ^ (-1074 : ℤ))) ∧
    (-(2 ^ (-1074 : ℤ)) : ℚ) < 0 ∧
    getColorForFrequency (.fin (-(2 ^ (-1074 : ℤ)))) (.fin 10) (some "default") =
      some "#2c3e50" := by
  have hres : (getProperty "default").or (getProperty "default") =
      .array colorPalettes.default := by
    rw [getProperty_default]; rfl
  have htiny : (0 : ℚ) < 2 ^ (-1074 : ℤ) := by positivity
  refine ⟨isBinary64_nine_tenths, by norm_num, by norm_num, by norm_num, ?_,
    isBinary64_neg_min, by linarith, ?_⟩
  · exact getColorForFrequency_none_of_ge 1 _ (5003999585967218 * 2 ^ (-52 : ℤ)) (by norm_num)
      "default" _ hres (by norm_num) (le_of_eq nearest64_one_div_nine_tenths.symm)
  · have hz : nearest64 (-(2 ^ (-1074 : ℤ)) / 10) = 0 := by
      apply nearest64_eq_zero_of_small
      · rw [tiny_half]; linarith
      · linarith
    rw [getColorForFrequency_of_zero _ 10 (by norm_num) "default" _ hres hz]
    rfl

/-- C13, amended: for every maximum `m > 0`, every frequency `f` and every palette (each has
`n = 10` colours), in binary64 arithmetic: a colour of the palette is returned for every
`0 ≤ f ≤ m`; the result is `undefined` for every `f ≥ m * 10 / 9`; for `m < f < m * 10 / 9` the
index is 9 or, when the rounding of the quotient and of the product reaches it, 10, so the
result is the last colour or `undefined`; a negative frequency gives `undefined` when its
quotient `f / m` lies below `-2 ^ -1075`, and the first colour when the quotient underflows to
zero. So a colour is returned only if `-2 ^ -1075 ≤ f / m` and `f < m * 10 / 9`. -/
theorem getColorForFrequency_color_range (f m : ℚ) (name : String) (colors : List String)
    (hm : 0 < m)
    (hpal : getProperty name = .array colors ∨
      (getProperty name = .undefined ∧ colors = colorPalettes.default)) :
    colors.length = 10 ∧
    (0 ≤ f → f ≤ m →
      ∃ c ∈ colors, getColorForFrequency (.fin f) (.fin m) (some name) = some c) ∧
    (m * 10 / 9 ≤ f → getColorForFrequency (.fin f) (.fin m) (some name) = none) ∧
    (m < f → f < m * 10 / 9 →
      getColorForFrequency (.fin f) (.fin m) (some name) = colors.getLast? ∨
      getColorForFrequency (.fin f) (.fin m) (some name) = none) ∧
    (f / m < -2 ^ (-1075 : ℤ) →
      getColorForFrequency (.fin f) (.fin m) (some name) = none) ∧
    (-2 ^ (-1075 : ℤ) ≤ f / m → f < 0 →
      getColorForFrequency (.fin f) (.fin m) (some name) = colors.head?) ∧
    ((∃ c, getColorForFrequency (.fin f) (.fin m) (some name) = some c) →
      -2 ^ (-1075 : ℤ) ≤ f / m ∧ f < m * 10 / 9) := by
  have hres := resolve_of_palette name colors hpal
  have hlen := resolve_array_length name colors hres
  obtain ⟨h9, h10, h0, last, hlast⟩ := getElem?_nine_eq_getLast? colors hlen
  have hin : 0 ≤ f → f ≤ m →
      ∃ c ∈ colors, getColorForFrequency (.fin f) (.fin m) (some name) = some c := by
    intro hf hfm
    obtain ⟨i, -, -, -, hlt, hget⟩ := getColorForFrequency_within f m hm hf hfm name colors hres
    exact ⟨colors[i], List.getElem_mem _, hget⟩
  have hbig : m * 10 / 9 ≤ f → getColorForFrequency (.fin f) (.fin m) (some name) = none := by
    intro h
    have hq : (10 : ℚ) / 9 ≤ f / m := by
      rw [le_div_iff₀ hm]; linarith
    have hge := nearest64_mono hq
    rw [nearest64_ten_ninths] at hge
    exact getColorForFrequency_none_of_ge f m _ hm.ne.symm name colors hres (by norm_num) hge
  have hmid : m < f → f < m * 10 / 9 →
      getColorForFrequency (.fin f) (.fin m) (some name) = colors.getLast? ∨
      getColorForFrequency (.fin f) (.fin m) (some name) = none := by
    intro h1 h2
    have hq1 : (1 : ℚ) ≤ f / m := by
      rw [le_div_iff₀ hm]; linarith
    have hq2 : f / m ≤ 10 / 9 := by
      rw [div_le_iff₀ hm]; linarith
    obtain ⟨-, hget⟩ := getColorForFrequency_index f m hm.ne.symm name colors hres
      (by linarith) (le_trans hq2 (by norm_num))
    have hr1 : (1 : ℚ) ≤ nearest64 (f / m) := by
      simpa using natCast_le_nearest64 (k := 1) (by norm_num) (by simpa using hq1)
    have hr2 : nearest64 (f / m) ≤ 5003999585967218 * 2 ^ (-52 : ℤ) := by
      rw [← nearest64_ten_ninths]; exact nearest64_mono hq2
    have hp1 : (9 : ℚ) ≤ nearest64 (nearest64 (f / m) * 9) := by
      simpa using natCast_le_nearest64 (q := nearest64 (f / m) * 9) (k := 9) (by norm_num)
        (by push_cast; linarith)
    have hp2 : nearest64 (nearest64 (f / m) * 9) ≤ 10 := by
      rw [← nearest64_nine_ten_ninths]
      exact nearest64_mono (by linarith)
    have hfl1 : 9 ≤ ⌊nearest64 (nearest64 (f / m) * 9)⌋ := Int.le_floor.2 (by simpa using hp1)
    have hfl2 : ⌊nearest64 (nearest64 (f / m) * 9)⌋ ≤ 10 := by
      have h3 : ((⌊nearest64 (nearest64 (f / m) * 9)⌋ : ℤ) : ℚ) ≤ ((10 : ℤ) : ℚ) :=
        le_trans (Int.floor_le _) (by simpa using hp2)
      exact Int.cast_le.1 h3
    rcases (by omega : ⌊nearest64 (nearest64 (f / m) * 9)⌋ = 9 ∨
        ⌊nearest64 (nearest64 (f / m) * 9)⌋ = 10) with h | h
    · left; rw [hget, h]; exact h9
    · right; rw [hget, h]; exact h10
  have hneg : f / m < -2 ^ (-1075 : ℤ) →
      getColorForFrequency (.fin f) (.fin m) (some name) = none := fun h =>
    getColorForFrequency_none_of_neg f m hm.ne.symm name colors hres (nearest64_neg_of_lt h)
  have hunder : -2 ^ (-1075 : ℤ) ≤ f / m → f < 0 →
      getColorForFrequency (.fin f) (.fin m) (some name) = colors.head? := by
    intro h1 h2
    have hq : f / m ≤ 0 := (div_neg_of_neg_of_pos h2 hm).le
    rw [getColorForFrequency_of_zero f m hm.ne.symm name colors hres
      (nearest64_eq_zero_of_small h1 hq)]
    exact h0
  refine ⟨hlen, hin, hbig, hmid, hneg, hunder, ?_⟩
  rintro ⟨c, hc⟩
  constructor
  · by_contra h
    rw [hneg (not_le.1 h)] at hc
    exact Option.noConfusion hc
  · by_contra h
    rw [hbig (not_lt.1 h)] at hc
    exact Option.noConfusion hc

theorem getColorForFrequency_color_range_witness :
    ((0 : ℚ) < 10 ∧ (getProperty "dark" = .array dark ∨
      (getProperty "dark" = .undefined ∧ dark = colorPalettes.default))) ∧
    (dark.length = 10 ∧
    ((0 : ℚ) ≤ 21 / 2 → (21 / 2 : ℚ) ≤ 10 →
      ∃ c ∈ dark, getColorForFrequency (.fin (21 / 2)) (.fin 10) (some "dark") = some c) ∧
    ((10 : ℚ) * 10 / 9 ≤ 21 / 2 →
      getColorForFrequency (.fin (21 / 2)) (.fin 10) (some "dark") = none) ∧
    ((10 : ℚ) < 21 / 2 → (21 / 2 : ℚ) < 10 * 10 / 9 →
      getColorForFrequency (.fin (21 / 2)) (.fin 10) (some "dark") = dark.getLast? ∨
      getColorForFrequency (.fin (21 / 2)) (.fin 10) (some "dark") = none) ∧
    ((21 / 2 : ℚ) / 10 < -2 ^ (-1075 : ℤ) →
      getColorForFrequency (.fin (21 / 2)) (.fin 10) (some "dark") = none) ∧
    (-2 ^ (-1075 : ℤ) ≤ (21 / 2 : ℚ) / 10 → (21 / 2 : ℚ) < 0 →
      getColorForFrequency (.fin (21 / 2)) (.fin 10) (some "dark") = dark.head?) ∧
    ((∃ c, getColorForFrequency (.fin (21 / 2)) (.fin 10) (some "dark") = some c) →
      -2 ^ (-1075 : ℤ) ≤ (21 / 2 : ℚ) / 10 ∧ (21 / 2 : ℚ) < 10 * 10 / 9)) :=
  ⟨⟨by norm_num, Or.inl (by decide)⟩,
    getColorForFrequency_color_range (21 / 2) 10 "dark" dark (by norm_num)
      (Or.inl (by decide))⟩

/-- C14: for a fixed maximum `m > 0` and palette, the index chosen by `getColorForFrequency`
does not decrease with the frequency, in binary64 arithmetic: if `0 ≤ f1 ≤ f2 ≤ m`, both calls
return a colour of the palette, at the computed indices `i1 ≤ i2`, and the position of the
colour returned for `f1` is at most the position of the colour returned for `f2`. -/
theorem getColorForFrequency_monotone (f1 f2 m : ℚ) (name : String) (colors : List String)
    (hm : 0 < m) (h0 : 0 ≤ f1) (h12 : f1 ≤ f2) (h2m : f2 ≤ m)
    (hpal : getProperty name = .array colors ∨
      (getProperty name = .undefined ∧ colors = colorPalettes.default)) :
    ∃ (i1 i2 : ℕ) (c1 c2 : String),
      JSNumber.floor (JSNumber.fin f1 / JSNumber.fin m * ((JSValue.array colors).length - 1)) =
        JSNumber.fin i1 ∧
      JSNumber.floor (JSNumber.fin f2 / JSNumber.fin m * ((JSValue.array colors).length - 1)) =
        JSNumber.fin i2 ∧
      i1 ≤ i2 ∧ i2 ≤ colors.length - 1 ∧
      colors[i1]? = some c1 ∧ colors[i2]? = some c2 ∧
      getColorForFrequency (.fin f1) (.fin m) (some name) = some c1 ∧
      getColorForFrequency (.fin f2) (.fin m) (some name) = some c2 ∧
      colors.indexOf c1 ≤ colors.indexOf c2 := by
  have hres := resolve_of_palette name colors hpal
  have hlen := resolve_array_length name colors hres
  have hnd := resolve_array_nodup name colors hres
  obtain ⟨i1, hi1, -, hI1, hlt1, hget1⟩ :=
    getColorForFrequency_within f1 m hm h0 (le_trans h12 h2m) name colors hres
  obtain ⟨i2, hi2, hi29, hI2, hlt2, hget2⟩ :=
    getColorForFrequency_within f2 m hm (le_trans h0 h12) h2m name colors hres
  have hq : f1 / m ≤ f2 / m := div_le_div_of_nonneg_right h12 hm.le
  have hmono : ⌊nearest64 (nearest64 (f1 / m) * 9)⌋ ≤ ⌊nearest64 (nearest64 (f2 / m) * 9)⌋ :=
    Int.floor_mono (nearest64_mono
      (mul_le_mul_of_nonneg_right (nearest64_mono hq) (by norm_num)))
  have hle : i1 ≤ i2 := by omega
  refine ⟨i1, i2, colors[i1], colors[i2], hI1, hI2, hle, by omega,
    List.getElem?_eq_getElem hlt1, List.getElem?_eq_getElem hlt2, hget1, hget2, ?_⟩
  rw [List.indexOf_getElem hnd, List.indexOf_getElem hnd]
  exact hle

theorem getColorForFrequency_monotone_witness :
    (((0 : ℚ) < 3 / 4 ∧ (0 : ℚ) ≤ 1 / 4 ∧ (1 / 4 : ℚ) ≤ 1 / 2 ∧ (1 / 2 : ℚ) ≤ 3 / 4) ∧
      (getProperty "pastel" = .array pastel ∨
        (getProperty "pastel" = .undefined ∧ pastel = colorPalettes.default))) ∧
    ∃ (i1 i2 : ℕ) (c1 c2 : String),
      JSNumber.floor (JSNumber.fin (1 / 4) / JSNumber.fin (3 / 4) *
        ((JSValue.array pastel).length - 1)) = JSNumber.fin i1 ∧
      JSNumber.floor (JSNumber.fin (1 / 2) / JSNumber.fin (3 / 4) *
        ((JSValue.array pastel).length - 1)) = JSNumber.fin i2 ∧
      i1 ≤ i2 ∧ i2 ≤ pastel.length - 1 ∧
      pastel[i1]? = some c1 ∧ pastel[i2]? = some c2 ∧
      getColorForFrequency (.fin (1 / 4)) (.fin (3 / 4)) (some "pastel") = some c1 ∧
      getColorForFrequency (.fin (1 / 2)) (.fin (3 / 4)) (some "pastel") = some c2 ∧
      pastel.indexOf c1 ≤ pastel.indexOf c2 :=
  ⟨⟨by norm_num, Or.inl (by decide)⟩,
    getColorForFrequency_monotone (1 / 4) (1 / 2) (3 / 4) "pastel" pastel (by norm_num)
      (by norm_num) (by norm_num) (by norm_num) (Or.inl (by decide))⟩

/-- C15: for every maximum `m > 0`, every frequency `f` with `0 ≤ f ≤ m`, both binary64
values, and each of the four defined palettes, `getColorForFrequency` selects the last position
`colorCount - 1` if and only if `f = m`; a frequency strictly below the maximum is mapped to
one of the first `colorCount - 1` positions. -/
theorem getColorForFrequency_last_iff (f m : ℚ) (name : String) (colors : List String)
    (hm : 0 < m) (hf : 0 ≤ f) (hfm : f ≤ m) (hbf : isBinary64 f) (hbm : isBinary64 m)
    (hp : getProperty name = .array colors) :
    ∃ (i : ℕ) (c : String),
      JSNumber.floor (JSNumber.fin f / JSNumber.fin m * ((JSValue.array colors).length - 1)) =
        JSNumber.fin i ∧
      colors[i]? = some c ∧
      getColorForFrequency (.fin f) (.fin m) (some name) = some c ∧
      colors.indexOf c = i ∧
      (i = colors.length - 1 ↔ f = m) ∧
      (f < m → i < colors.length - 1) := by
  have hres := resolve_of_palette name colors (Or.inl hp)
  have hlen := resolve_array_length name colors hres
  have hnd := resolve_array_nodup name colors hres
  obtain ⟨i, hi, hi9, hI, hlt, hget⟩ :=
    getColorForFrequency_within f m hm hf hfm name colors hres
  have hbelow : f < m → i < 9 := by
    intro h
    have hq := div_le_pred_one hbf hbm hf h
    have hr := nearest64_mono hq
    rw [nearest64_pred_one] at hr
    have hp9 := nearest64_mono (mul_le_mul_of_nonneg_right hr (by norm_num : (0 : ℚ) ≤ 9))
    rw [nearest64_nine_pred_one] at hp9
    have hpos : (0 : ℚ) < 2 ^ (-49 : ℤ) := by positivity
    have hfl : ⌊nearest64 (nearest64 (f / m) * 9)⌋ < 9 :=
      Int.floor_lt.2 (by push_cast; linarith)
    omega
  have hat : f = m → i = 9 := by
    intro h
    have hone : nearest64 (f / m) = 1 := by
      rw [h, div_self hm.ne.symm]
      simpa using nearest64_natCast 1 (by norm_num)
    have hnine : nearest64 (nearest64 (f / m) * 9) = 9 := by
      rw [hone, one_mul]
      simpa using nearest64_natCast 9 (by norm_num)
    rw [hnine] at hi
    have : ⌊(9 : ℚ)⌋ = 9 := by norm_num
    omega
  refine ⟨i, colors[i], hI, List.getElem?_eq_getElem hlt, hget,
    List.indexOf_getElem hnd _ _, ⟨fun h => ?_, fun h => by rw [hat h, hlen]⟩, fun h => ?_⟩
  · rcases lt_or_eq_of_le hfm with hlt' | heq
    · have := hbelow hlt'
      omega
    · exact heq
  · have := hbelow h
    omega

theorem getColorForFrequency_last_iff_witness :
    (((0 : ℚ) < 1 ∧ (0 : ℚ) ≤ 8106479329266893 / 9007199254740992 ∧
        (8106479329266893 / 9007199254740992 : ℚ) ≤ 1) ∧
      isBinary64 (8106479329266893 / 9007199254740992) ∧ isBinary64 1 ∧
      getProperty "nature" = .array nature) ∧
    ∃ (i : ℕ) (c : String),
      JSNumber.floor (JSNumber.fin (8106479329266893 / 9007199254740992) / JSNumber.fin 1 *
        ((JSValue.array nature).length - 1)) = JSNumber.fin i ∧
      nature[i]? = some c ∧
      getColorForFrequency (.fin (8106479329266893 / 9007199254740992)) (.fin 1)
        (some "nature") = some c ∧
      nature.indexOf c = i ∧
      (i = nature.length - 1 ↔ (8106479329266893 / 9007199254740992 : ℚ) = 1) ∧
      ((8106479329266893 / 9007199254740992 : ℚ) < 1 → i < nature.length - 1) :=
  ⟨⟨by norm_num, isBinary64_nine_tenths, isBinary64_one, by decide⟩,
    getColorForFrequency_last_iff (8106479329266893 / 9007199254740992) 1 "nature" nature
      (by norm_num) (by norm_num) (by norm_num) isBinary64_nine_tenths isBinary64_one
      (by decide)⟩

end ColorPalettes
